import Mathlib

/-!
Verification of the FirmaVB quoting application (src/script.js) against its
natural-language specification.  The JavaScript source is shallowly embedded:
strings are Lean `String`s, JS objects keyed by product code are association
lists in insertion order, JS numbers used as quantities/prices are `Nat`, and
the floating-point similarity score is modelled exactly over `ℚ`.
-/

namespace FirmaVB

/-! ### String utilities shared by the source functions -/

/-- Per-character lowercasing, modelling `String.prototype.toLowerCase` on the
ASCII data handled by the application. -/
def lowerStr (s : String) : String := ⟨s.data.map Char.toLower⟩

/-- Per-character uppercasing, modelling `String.prototype.toUpperCase`. -/
def upperStr (s : String) : String := ⟨s.data.map Char.toUpper⟩

/-- The character class `[a-z0-9]` used by the tokenizing regexes of
`handleFileUpload` (`/[^a-z0-9]+/` and `/[^a-z0-9 ]+/` + `/\s+/`). -/
def isTokenChar (c : Char) : Bool := c.isLower || c.isDigit

/-- Auxiliary tokenizer state machine: accumulates the current run of token
characters (reversed) and emits maximal nonempty runs. -/
def tokenizeAux : List Char → List Char → List (List Char)
  | [], acc => if acc.isEmpty then [] else [acc.reverse]
  | c :: cs, acc =>
    if isTokenChar c then tokenizeAux cs (c :: acc)
    else if acc.isEmpty then tokenizeAux cs []
    else acc.reverse :: tokenizeAux cs []

/-- Splitting a string into maximal nonempty runs of `[a-z0-9]` characters.
This models `str.split(/[^a-z0-9]+/)` (and equally
`str.replace(/[^a-z0-9 ]+/g, ' ').split(/\s+/)`) up to the empty-string
artifacts of JS `split`, which every caller in the source filters away
(`if (!tok) return` or a minimum-length filter). -/
def tokenize (s : String) : List String :=
  (tokenizeAux s.data []).map (fun cs => ⟨cs⟩)

/-- First-occurrence deduplication with an accumulator of already-seen
elements, modelling insertion into a JS `Set`. -/
def dedupFirstAux : List String → List String → List String
  | [], _ => []
  | x :: xs, seen =>
    if seen.contains x then dedupFirstAux xs seen
    else x :: dedupFirstAux xs (x :: seen)

/-- First-occurrence deduplication, modelling insertion into a JS `Set` and
iterating it in insertion order. -/
def dedupFirst (l : List String) : List String := dedupFirstAux l []

/-- Whether `q` is a leading segment of `s` (helper for substring search). -/
def leadsChars : List Char → List Char → Bool
  | [], _ => true
  | _ :: _, [] => false
  | x :: xs, y :: ys => x = y && leadsChars xs ys

/-- Whether `q` occurs contiguously inside `s`, scanning left to right. -/
def containsAux (q : List Char) : List Char → Bool
  | [] => q.isEmpty
  | c :: cs => leadsChars q (c :: cs) || containsAux q cs

/-- Substring containment, modelling `String.prototype.includes`. -/
def strContains (s q : String) : Bool := containsAux q.data s.data

/-- Whether the string contains a digit, modelling the test `/\d/.test(tok)`
on the already-lowercased alphanumeric tokens of `handleFileUpload`. -/
def hasDigit (s : String) : Bool := s.data.any Char.isDigit

/-- JS whitespace characters relevant to the source's `trim` and `/\s+/` on
the ASCII documents handled here. -/
def isWS (c : Char) : Bool := c = ' ' || c = '\t' || c = '\r' || c = '\n'

/-- Trimming leading and trailing whitespace, modelling
`String.prototype.trim`. -/
def trimStr (s : String) : String :=
  ⟨((s.data.dropWhile isWS).reverse.dropWhile isWS).reverse⟩

/-- Splitting a character stream at line breaks, modelling
`str.split(/\r?\n/)`: a `\n` ends a line, and a `\r` immediately followed by
`\n` is consumed with it. -/
def splitLinesAux : List Char → List Char → List (List Char)
  | [], acc => [acc.reverse]
  | '\r' :: '\n' :: cs, acc => acc.reverse :: splitLinesAux cs []
  | '\n' :: cs, acc => acc.reverse :: splitLinesAux cs []
  | c :: cs, acc => splitLinesAux cs (c :: acc)

/-- Splitting a string into lines, modelling `str.split(/\r?\n/)`. -/
def splitLines (s : String) : List String :=
  (splitLinesAux s.data []).map (fun cs => ⟨cs⟩)

/-- Joining strings with single spaces, modelling `Array.prototype.join(' ')`. -/
def joinSpace : List String → String
  | [] => ""
  | [w] => w
  | w :: ws => w ++ " " ++ joinSpace ws

/-! ### Data model -/

/-- A catalog product as stored in `price_list.json` and the `products`
array: code, description, brand, category and a non-negative price. -/
structure Product where
  codigo : String
  descripcion : String
  marca : String
  categoria : String
  precio : Nat
deriving DecidableEq

/-- The three-value match vocabulary used by the quote
(`'exact' | 'approx' | 'unmatched'`). -/
inductive MatchKind where
  | exact
  | approx
  | unmatched
deriving DecidableEq

/-- The values the `match` field of a cart entry can hold in the source:
absent (`undefined`, from `addToCart`), the legacy booleans `true`/`false`
handled by `generateQuote`, or one of the three match strings. -/
inductive CartMatch where
  | undef
  | btrue
  | bfalse
  | tag (m : MatchKind)
deriving DecidableEq

/-- A cart entry `{ item, cantidad, match }`. -/
structure CEntry where
  item : Product
  cantidad : Nat
  mtch : CartMatch
deriving DecidableEq

/-- The cart object `{codigo: {item, cantidad, match}}`, modelled as an
association list in JS insertion order. -/
abbrev Cart := List (String × CEntry)

/-- A quote entry: same shape as a cart entry but with the match already
normalized to the three-value vocabulary. -/
structure QEntry where
  item : Product
  cantidad : Nat
  mtch : MatchKind
deriving DecidableEq

/-- The quote object, also keyed by product code in insertion order. -/
abbrev Quote := List (String × QEntry)

/-! ### Keyed-object primitives (JS object semantics)

A JS object with non-numeric string keys (the product codes handled here)
preserves key insertion order; reading a key walks to its entry, writing an
existing key replaces its value in place, writing a fresh key appends it,
and `delete` removes it. -/

/-- `obj[key]` as a read. -/
def objGet {α : Type} (l : List (String × α)) (k : String) : Option α :=
  (l.find? (fun e => e.1 = k)).map (fun e => e.2)

/-- `obj[key] = v`: overwrite in place if the key exists (JS objects keep the
key's position), otherwise append the new key at the end. -/
def objSet {α : Type} (l : List (String × α)) (k : String) (v : α) : List (String × α) :=
  if (l.find? (fun e => e.1 = k)).isSome then
    l.map (fun e => if e.1 = k then (k, v) else e)
  else l ++ [(k, v)]

/-- `delete obj[key]`. -/
def objDelete {α : Type} (l : List (String × α)) (k : String) : List (String × α) :=
  l.filter (fun e => e.1 ≠ k)

/-- `cart[code]` as a read. -/
abbrev cartGet (cart : Cart) (code : String) : Option CEntry := objGet cart code

/-- `cart[code] = e`. -/
abbrev cartSet (cart : Cart) (code : String) (e : CEntry) : Cart := objSet cart code e

/-- `delete cart[code]`. -/
abbrev cartDelete (cart : Cart) (code : String) : Cart := objDelete cart code

/-- `quote[code]` as a read. -/
abbrev quoteGet (q : Quote) (code : String) : Option QEntry := objGet q code

/-- `quote[code] = e`. -/
abbrev quoteSet (q : Quote) (code : String) (e : QEntry) : Quote := objSet q code e

/-- `delete quote[code]`. -/
abbrev quoteDelete (q : Quote) (code : String) : Quote := objDelete q code

/-! ### `searchProducts` -/

/-- `searchProducts(query)`: linear filter over the catalog testing whether
any of the four lowercased fields contains the query, then `slice(0, 20)`. -/
def searchProducts (ps : List Product) (query : String) : List Product :=
  (ps.filter (fun item =>
    strContains (lowerStr item.codigo) query ||
    strContains (lowerStr item.descripcion) query ||
    strContains (lowerStr item.marca) query ||
    strContains (lowerStr item.categoria) query)).take 20

/-! ### `levenshteinDistance` and `findSimilarProduct` -/

/-- Row `i + 1` of the `levenshteinDistance` dynamic-programming table, given
row `i` as the function `prev`: `dp[i+1][0] = i + 1`, and
`dp[i+1][j+1] = dp[i][j]` when `a[i] = b[j]`, otherwise
`min(dp[i][j+1], dp[i+1][j], dp[i][j]) + 1`. -/
def levDPRow (a b : List Char) (prev : Nat → Nat) (i : Nat) : Nat → Nat
  | 0 => i + 1
  | j + 1 =>
    if a.getD i ' ' = b.getD j ' ' then prev j
    else min (prev (j + 1)) (min (levDPRow a b prev i j) (prev j)) + 1

/-- The dynamic-programming table of `levenshteinDistance`, row by row:
`dp[0][j] = j`, `dp[i][0] = i`, and
`dp[i][j] = dp[i-1][j-1]` when `a[i-1] = b[j-1]`, otherwise
`min(dp[i-1][j], dp[i][j-1], dp[i-1][j-1]) + 1`. -/
def levDP (a b : List Char) : Nat → Nat → Nat
  | 0 => fun j => j
  | i + 1 => levDPRow a b (levDP a b i) i

/-- `levenshteinDistance(a, b)`: the corner `dp[a.length][b.length]` of the
table. -/
def levenshteinDistance (a b : String) : Nat :=
  levDP a.data b.data a.data.length b.data.length

/-- The similarity score computed inside `findSimilarProduct` for one
product: `1 - dist / maxLen` over the lowercased token and code, with the
floating-point arithmetic modelled exactly in `ℚ`. -/
def similarity (tok : String) (prod : Product) : ℚ :=
  let tokLower := lowerStr tok
  let codeLower := lowerStr prod.codigo
  1 - (levenshteinDistance tokLower codeLower : ℚ) /
      (max tokLower.length codeLower.length : ℚ)

/-- `findSimilarProduct(tok)`: scan the whole catalog keeping the best
`(bestMatch, bestSim)` pair (strict improvement only, starting from
`(null, 0)`), and return the best product only when `bestSim >= 0.7`. -/
def findSimilarProduct (ps : List Product) (tok : String) : Option Product :=
  let r := ps.foldl
    (fun acc prod => if acc.2 < similarity tok prod then (some prod, similarity tok prod) else acc)
    ((none : Option Product), (0 : ℚ))
  if (7 : ℚ) / 10 ≤ r.2 then r.1 else none

/-! ### Cart operations -/

/-- `addToCart(item)`: increment the quantity if the code is present,
otherwise insert a fresh entry with quantity 1 and no `match` field. -/
def addToCart (cart : Cart) (item : Product) : Cart :=
  match cartGet cart item.codigo with
  | some e => cartSet cart item.codigo ⟨e.item, e.cantidad + 1, e.mtch⟩
  | none => cartSet cart item.codigo ⟨item, 1, .undef⟩

/-- The quantity-input handler of `updateCartDisplay`: `parseInt` the input
(`none` models `NaN`) and assign it only when strictly positive. -/
def setQuantity (cart : Cart) (code : String) (v : Option Int) : Cart :=
  match v with
  | some q =>
    if 0 < q then
      match cartGet cart code with
      | some e => cartSet cart code ⟨e.item, q.toNat, e.mtch⟩
      | none => cart
    else cart
  | none => cart

/-- The remove-button handler of `updateCartDisplay`: `delete cart[code]`. -/
def removeFromCart (cart : Cart) (code : String) : Cart :=
  cartDelete cart code

/-! ### `buildDescIndex` -/

/-- The inverted description index `descIndex`, keyed by normalized token. -/
abbrev DescIdx := List (String × List Product)

/-- `descIndex[tok].push(prod)`, creating the posting list when absent. -/
def idxPush (idx : DescIdx) (tok : String) (prod : Product) : DescIdx :=
  if (idx.find? (fun e => e.1 = tok)).isSome then
    idx.map (fun e => if e.1 = tok then (tok, e.2 ++ [prod]) else e)
  else idx ++ [(tok, [prod])]

/-- `descIndex[tok]` as a read; an absent key reads as an empty posting list
(the source guards reads with `if (descIndex[tok])`, and present posting
lists are never empty). -/
def idxLookup (idx : DescIdx) (tok : String) : List Product :=
  ((idx.find? (fun e => e.1 = tok)).map (fun e => e.2)).getD []

/-- The per-product token set of `buildDescIndex`: lowercase the description,
replace every character outside `[a-z0-9 ]` by a space, split on whitespace,
keep tokens of length at least 4, and deduplicate into a `Set`. -/
def prodTokens (prod : Product) : List String :=
  dedupFirst ((tokenize (lowerStr prod.descripcion)).filter (fun w => 4 ≤ w.length))

/-- `buildDescIndex()`: for every product in catalog order, push it onto the
posting list of each of its (deduplicated) description tokens. -/
def buildDescIndex (ps : List Product) : DescIdx :=
  ps.foldl (fun idx prod => (prodTokens prod).foldl (fun idx tok => idxPush idx tok prod) idx) []

/-! ### `handleFileUpload`: the four reconciliation passes -/

/-- One step of the exact pass: `matchedCodes.forEach` looks up the first
product whose lowercased code equals the token and adds it with quantity 1
and `match: 'exact'`, or increments an existing entry. -/
def exactStep (ps : List Product) (cart : Cart) (codeLC : String) : Cart :=
  match ps.find? (fun p => lowerStr p.codigo = codeLC) with
  | some matchItem =>
    match cartGet cart matchItem.codigo with
    | some e => cartSet cart matchItem.codigo ⟨e.item, e.cantidad + 1, e.mtch⟩
    | none => cartSet cart matchItem.codigo ⟨matchItem, 1, .tag .exact⟩
  | none => cart

/-- The placeholder product synthesized for an unresolved token. -/
def placeholderFor (token : String) : Product :=
  ⟨upperStr token, "Producto solicitado: " ++ upperStr token, "N/A", "N/A", 0⟩

/-- One step of the fuzzy pass: run `findSimilarProduct` on the token; on a
hit add/increment the product as `'approx'`, otherwise add/increment a
zero-price placeholder keyed by the uppercased token as `'unmatched'`. -/
def fuzzyStep (ps : List Product) (cart : Cart) (token : String) : Cart :=
  match findSimilarProduct ps token with
  | some similarItem =>
    match cartGet cart similarItem.codigo with
    | some e => cartSet cart similarItem.codigo ⟨e.item, e.cantidad + 1, e.mtch⟩
    | none => cartSet cart similarItem.codigo ⟨similarItem, 1, .tag .approx⟩
  | none =>
    let code := upperStr token
    match cartGet cart code with
    | some e => cartSet cart code ⟨e.item, e.cantidad + 1, e.mtch⟩
    | none => cartSet cart code ⟨placeholderFor token, 1, .tag .unmatched⟩

/-- `descCounts[prod.codigo] = (descCounts[prod.codigo] || 0) + 1` over an
insertion-ordered tally. -/
def bumpCount (counts : List (String × Nat)) (code : String) : List (String × Nat) :=
  if (counts.find? (fun e => e.1 = code)).isSome then
    counts.map (fun e => if e.1 = code then (e.1, e.2 + 1) else e)
  else counts ++ [(code, 1)]

/-- The tally of the description-frequency pass: for each distinct document
token of length at least 4, bump the count of every product in its posting
list. -/
def buildCounts (idx : DescIdx) (descTokens : List String) : List (String × Nat) :=
  descTokens.foldl
    (fun counts tok => (idxLookup idx tok).foldl (fun counts prod => bumpCount counts prod.codigo) counts)
    []

/-- Count read-back used by the sort comparator (`descCounts[b] - descCounts[a]`). -/
def countOf (counts : List (String × Nat)) (code : String) : Nat :=
  ((counts.find? (fun e => e.1 = code)).map (fun e => e.2)).getD 0

/-- Stable insertion of a code in front of the first strictly smaller count. -/
def insertDesc (cnt : String → Nat) (x : String) : List String → List String
  | [] => [x]
  | y :: ys => if cnt y < cnt x then x :: y :: ys else y :: insertDesc cnt x ys

/-- The stable sort by descending count performed by
`Object.keys(descCounts).sort((a, b) => descCounts[b] - descCounts[a])`:
processing keys left to right, each is placed after every earlier key of
greater-or-equal count. -/
def sortByCountDesc (cnt : String → Nat) (l : List String) : List String :=
  l.foldl (fun acc x => insertDesc cnt x acc) []

/-- The suggestion loop of the description-frequency pass: walk the sorted
codes, skip codes already in the cart, and add up to 5 catalog products as
`'approx'` with quantity 1. -/
def addSuggestions (ps : List Product) : Cart → List String → Nat → Cart
  | cart, [], _ => cart
  | cart, c :: rest, n =>
    if 5 ≤ n then cart
    else if (cartGet cart c).isSome then addSuggestions ps cart rest n
    else
      match ps.find? (fun p => p.codigo = c) with
      | some prod => addSuggestions ps (cartSet cart c ⟨prod, 1, .tag .approx⟩) rest (n + 1)
      | none => addSuggestions ps cart rest n

/-- The distinct document tokens of length at least 4 fed to the
description-frequency pass. -/
def descTokensOf (lowerContent : String) : List String :=
  dedupFirst ((tokenize lowerContent).filter (fun w => 4 ≤ w.length))

/-- The sorted candidate codes of the description-frequency pass. -/
def sortedCodesOf (idx : DescIdx) (lowerContent : String) : List String :=
  let descCounts := buildCounts idx (descTokensOf lowerContent)
  sortByCountDesc (countOf descCounts) (descCounts.map (fun e => e.1))

/-- The whole description-frequency pass. -/
def descPass (ps : List Product) (idx : DescIdx) (cart : Cart) (lowerContent : String) : Cart :=
  addSuggestions ps cart (sortedCodesOf idx lowerContent) 0

/-- The fallback phrase of the line pass: the first three words of length at
least 3 of the normalized lowercased line, joined by spaces; `none` when no
such word exists. -/
def firstWordsPhrase (queryLine : String) : Option String :=
  let words := (tokenize queryLine).filter (fun w => 3 ≤ w.length)
  if words.isEmpty then none else some (joinSpace (words.take 3))

/-- The product resolved for one line: search the lowercased full line;
if empty, search the fallback phrase; take only the first result. -/
def lineResult (ps : List Product) (line : String) : Option Product :=
  let queryLine := lowerStr line
  let res := searchProducts ps queryLine
  let res :=
    if res.isEmpty then
      match firstWordsPhrase queryLine with
      | some phrase => searchProducts ps phrase
      | none => res
    else res
  res.head?

/-- One step of the line pass: add the resolved product as `'approx'` with
quantity 1 when its code is absent, otherwise increment the existing entry's
quantity. -/
def processLine (ps : List Product) (cart : Cart) (line : String) : Cart :=
  match lineResult ps line with
  | none => cart
  | some item =>
    match cartGet cart item.codigo with
    | none => cartSet cart item.codigo ⟨item, 1, .tag .approx⟩
    | some e => cartSet cart item.codigo ⟨e.item, e.cantidad + 1, e.mtch⟩

/-- The non-empty trimmed lines of the document. -/
def linesOf (contentStr : String) : List String :=
  ((splitLines contentStr).map trimStr).filter (fun l => l.length > 0)

/-- The token-classification phase of `handleFileUpload`: `matchedCodes` is
the set of distinct tokens equal to some lowercased catalog code, in first
occurrence order. -/
def matchedCodesOf (ps : List Product) (lowerContent : String) : List String :=
  dedupFirst ((tokenize lowerContent).filter
    (fun tok => (ps.map (fun p => lowerStr p.codigo)).contains tok))

/-- `unmatchedTokens`: the distinct tokens that are not catalog codes but
contain a digit and have length in `[3, 10]`, in first occurrence order. -/
def unmatchedTokensOf (ps : List Product) (lowerContent : String) : List String :=
  dedupFirst ((tokenize lowerContent).filter
    (fun tok => !(ps.map (fun p => lowerStr p.codigo)).contains tok &&
      hasDigit tok && 3 ≤ tok.length && tok.length ≤ 10))

/-- The whole `handleFileUpload` reconciliation over a decoded document:
exact pass, fuzzy pass, description-frequency pass, line pass, each
committing to the cart before the next runs. -/
def reconcile (ps : List Product) (idx : DescIdx) (cart : Cart) (contentStr : String) : Cart :=
  let lowerContent := lowerStr contentStr
  let cart1 := (matchedCodesOf ps lowerContent).foldl (exactStep ps) cart
  let cart2 := (unmatchedTokensOf ps lowerContent).foldl (fuzzyStep ps) cart1
  let cart3 := descPass ps idx cart2 lowerContent
  (linesOf contentStr).foldl (processLine ps) cart3

/-! ### Quote operations -/

/-- The match normalization of `generateQuote`: `undefined` and `true` map to
`'exact'`, `false` maps to `'unmatched'`, and the three strings pass through. -/
def normalizeMatch : CartMatch → MatchKind
  | .undef => .exact
  | .btrue => .exact
  | .bfalse => .unmatched
  | .tag m => m

/-- `generateQuote()`: on an empty cart alert and leave the quote unchanged;
otherwise reset the quote and copy every cart entry under the same key with
the normalized match. -/
def generateQuote (cart : Cart) (q : Quote) : Quote :=
  if cart.isEmpty then q
  else cart.map (fun ce => (ce.1, ⟨ce.2.item, ce.2.cantidad, normalizeMatch ce.2.mtch⟩))

/-- The product-substitution handler of `updateQuoteDisplay`: look up the
selected code in the catalog; if found, set the record's item to it, set the
match to `'exact'` exactly when the code is unchanged, and re-key the record
when the code changed (deleting the old key and writing the new one). -/
def substituteProduct (ps : List Product) (q : Quote) (originalCode newCode : String) : Quote :=
  match ps.find? (fun p => p.codigo = newCode) with
  | none => q
  | some newItem =>
    match quoteGet q originalCode with
    | none => q
    | some rec0 =>
      let rec1 : QEntry :=
        ⟨newItem, rec0.cantidad, if newItem.codigo = originalCode then .exact else .approx⟩
      if newItem.codigo = originalCode then quoteSet q originalCode rec1
      else quoteSet (quoteDelete q originalCode) newItem.codigo rec1

/-- The quantity-input handler of `updateQuoteDisplay`: assign only when the
parsed value is strictly positive. -/
def quoteSetQuantity (q : Quote) (code : String) (v : Option Int) : Quote :=
  match v with
  | some n =>
    if 0 < n then
      match quoteGet q code with
      | some e => quoteSet q code ⟨e.item, n.toNat, e.mtch⟩
      | none => q
    else q
  | none => q

/-- The remove-button handler of `updateQuoteDisplay`. -/
def quoteRemove (q : Quote) (code : String) : Quote :=
  quoteDelete q code

/-- The cart total displayed by `updateCartDisplay`: the sum of
`precio * cantidad` over the entries. -/
def cartTotal (cart : Cart) : Nat :=
  (cart.map (fun ce => ce.2.item.precio * ce.2.cantidad)).sum

/-- The quote total displayed by `updateQuoteDisplay`. -/
def quoteTotal (q : Quote) : Nat :=
  (q.map (fun ce => ce.2.item.precio * ce.2.cantidad)).sum

/-- The spec's search predicate: the case-folded query is a substring of the
case-folded `code`, `description`, `brand`, or `category` (logical OR). -/
def matchesQuery (item : Product) (query : String) : Bool :=
  strContains (lowerStr item.codigo) query ||
  strContains (lowerStr item.descripcion) query ||
  strContains (lowerStr item.marca) query ||
  strContains (lowerStr item.categoria) query

/-- The running maximum of `f` over a list, seeded at `s`. -/
def maxFrom (f : Product → ℚ) (ps : List Product) (s : ℚ) : ℚ :=
  ps.foldl (fun t p => max t (f p)) s

/-- The best-match fold of `findSimilarProduct`, over an arbitrary seed. -/
def foldBest (f : Product → ℚ) (ps : List Product) (acc : Option Product × ℚ) :
    Option Product × ℚ :=
  ps.foldl (fun acc prod => if acc.2 < f prod then (some prod, f prod) else acc) acc

/-- The spec's best similarity over the whole catalog (0 when the catalog is
empty). -/
def bestSimilarity (ps : List Product) (tok : String) : ℚ :=
  maxFrom (similarity tok) ps 0

/-- The spec-side fuzzy matcher: compute every similarity, keep the single
best across the whole scan with ties resolved to the first product in
catalog order, and return it exactly when the best similarity is at least
0.70. -/
def fuzzySpec (ps : List Product) (tok : String) : Option Product :=
  if (7 : ℚ) / 10 ≤ bestSimilarity ps tok then
    ps.find? (fun p => decide (similarity tok p = bestSimilarity ps tok))
  else none

/-- The candidate selector of the suggestion loop: a code not already in the
cart and resolvable in the catalog yields a quantity-1 `approx` entry. -/
def pickSuggestion (ps : List Product) (cart : Cart) (c : String) : Option (String × CEntry) :=
  if (cartGet cart c).isSome then none
  else (ps.find? (fun p => p.codigo = c)).map (fun prod => (c, ⟨prod, 1, .tag .approx⟩))

/-- A six-product catalog whose descriptions are six distinct length-5
keywords, used to exhibit the tie-breaking order of the
description-frequency pass. -/
def catalogC5 : List Product :=
  [⟨"Q1", "worda", "N/A", "N/A", 10⟩, ⟨"Q2", "wordb", "N/A", "N/A", 10⟩,
   ⟨"Q3", "wordc", "N/A", "N/A", 10⟩, ⟨"Q4", "wordd", "N/A", "N/A", 10⟩,
   ⟨"Q5", "worde", "N/A", "N/A", 10⟩, ⟨"Q6", "wordf", "N/A", "N/A", 10⟩]

/-- The one-product catalog of the end-to-end scenario: code `"A100"`,
price 500. -/
def prodA100 : Product := ⟨"A100", "filtro", "N/A", "N/A", 500⟩

/-- The catalog of end-to-end scenario 2. -/
def catalogC3 : List Product := [prodA100]

/-- The ledger states reachable through the program's cart operations:
start empty, add from search results, change a quantity, remove, or run a
document reconciliation. -/
inductive CartReach (ps : List Product) : Cart → Prop where
  | init : CartReach ps []
  | add (cart : Cart) (item : Product) :
      CartReach ps cart → CartReach ps (addToCart cart item)
  | setQty (cart : Cart) (code : String) (v : Option Int) :
      CartReach ps cart → CartReach ps (setQuantity cart code v)
  | remove (cart : Cart) (code : String) :
      CartReach ps cart → CartReach ps (removeFromCart cart code)
  | upload (cart : Cart) (doc : String) :
      CartReach ps cart → CartReach ps (reconcile ps (buildDescIndex ps) cart doc)

/-- The quote states reachable through the program's quote operations:
start empty, generate from a reachable ledger, change a quantity, remove an
entry, or substitute a product. -/
inductive QuoteReach (ps : List Product) : Quote → Prop where
  | init : QuoteReach ps []
  | gen (cart : Cart) (q : Quote) :
      CartReach ps cart → QuoteReach ps q → QuoteReach ps (generateQuote cart q)
  | setQty (q : Quote) (code : String) (v : Option Int) :
      QuoteReach ps q → QuoteReach ps (quoteSetQuantity q code v)
  | remove (q : Quote) (code : String) :
      QuoteReach ps q → QuoteReach ps (quoteRemove q code)
  | subst (q : Quote) (oldCode newCode : String) :
      QuoteReach ps q → QuoteReach ps (substituteProduct ps q oldCode newCode)

/-- The combined per-entry invariant of the ledger: positive quantity and
key equal to the stored product's code. -/
def goodCart (cart : Cart) : Prop :=
  ∀ e ∈ cart, 1 ≤ e.2.cantidad ∧ e.1 = e.2.item.codigo

/-- The combined per-entry invariant of the quote. -/
def goodQuote (q : Quote) : Prop :=
  ∀ e ∈ q, 1 ≤ e.2.cantidad ∧ e.1 = e.2.item.codigo

/-! ### Helper lemmas on the keyed-object primitives -/

theorem objGet_nil {α : Type} (k : String) : objGet ([] : List (String × α)) k = none := rfl

theorem objGet_cons {α : Type} (e : String × α) (l : List (String × α)) (k : String) :
    objGet (e :: l) k = if e.1 = k then some e.2 else objGet l k := by
  by_cases h : e.1 = k <;> simp [objGet, List.find?_cons, h]

theorem objGet_mapSubst_self {α : Type} (l : List (String × α)) (k : String) (v : α) :
    objGet (l.map (fun e => if e.1 = k then (k, v) else e)) k =
      if (l.find? (fun e => decide (e.1 = k))).isSome then some v else none := by
  induction l with
  | nil => simp [objGet]
  | cons e l ih =>
    by_cases h : e.1 = k
    · simp [h, objGet_cons, List.find?_cons]
    · have hd : (decide (e.1 = k)) = false := by simp [h]
      simp only [List.map_cons, if_neg h, objGet_cons, if_neg h, List.find?_cons, hd]
      exact ih

theorem objGet_mapSubst_ne {α : Type} (l : List (String × α)) (k k' : String) (v : α)
    (h : k' ≠ k) :
    objGet (l.map (fun e => if e.1 = k then (k, v) else e)) k' = objGet l k' := by
  induction l with
  | nil => simp [objGet]
  | cons e l ih =>
    by_cases he : e.1 = k
    · have hne : ¬ e.1 = k' := by rw [he]; exact Ne.symm h
      simp only [List.map_cons, if_pos he, objGet_cons, if_neg (Ne.symm h), if_neg hne]
      exact ih
    · simp only [List.map_cons, if_neg he, objGet_cons]
      by_cases he' : e.1 = k'
      · simp [he']
      · simp only [if_neg he']
        exact ih

theorem objGet_objSet_self {α : Type} (l : List (String × α)) (k : String) (v : α) :
    objGet (objSet l k v) k = some v := by
  unfold objSet
  by_cases hs : (l.find? (fun e => decide (e.1 = k))).isSome
  · rw [if_pos hs, objGet_mapSubst_self, if_pos hs]
  · rw [if_neg hs]
    unfold objGet
    rw [List.find?_append]
    have hnone : l.find? (fun e => decide (e.1 = k)) = none := by
      cases hfind : l.find? (fun e => decide (e.1 = k)) with
      | none => rfl
      | some e => rw [hfind] at hs; simp at hs
    rw [hnone]
    simp [List.find?_cons]

theorem objGet_objSet_ne {α : Type} (l : List (String × α)) (k k' : String) (v : α)
    (h : k' ≠ k) : objGet (objSet l k v) k' = objGet l k' := by
  unfold objSet
  by_cases hs : (l.find? (fun e => decide (e.1 = k))).isSome
  · rw [if_pos hs, objGet_mapSubst_ne _ _ _ _ h]
  · rw [if_neg hs]
    unfold objGet
    rw [List.find?_append]
    have : List.find? (fun e => decide (e.1 = k')) [(k, v)] = none := by
      simp [List.find?_cons, Ne.symm h]
    rw [this, Option.or_none]

theorem objSet_of_absent {α : Type} (l : List (String × α)) (k : String) (v : α)
    (h : objGet l k = none) : objSet l k v = l ++ [(k, v)] := by
  unfold objSet
  have : l.find? (fun e => decide (e.1 = k)) = none := by
    cases hfind : l.find? (fun e => decide (e.1 = k)) with
    | none => rfl
    | some e => rw [objGet, hfind] at h; simp at h
  rw [this]
  simp

theorem objGet_objDelete_self {α : Type} (l : List (String × α)) (k : String) :
    objGet (objDelete l k) k = none := by
  unfold objGet objDelete
  have : (l.filter (fun e => decide (e.1 ≠ k))).find? (fun e => decide (e.1 = k)) = none := by
    rw [List.find?_eq_none]
    intro x hx
    rw [List.mem_filter] at hx
    simpa using hx.2
  rw [this]
  rfl

theorem objGet_objDelete_ne {α : Type} (l : List (String × α)) (k k' : String)
    (h : k' ≠ k) : objGet (objDelete l k) k' = objGet l k' := by
  induction l with
  | nil => rfl
  | cons e l ih =>
    unfold objDelete
    by_cases he : e.1 = k
    · have hne : ¬ e.1 = k' := by rw [he]; exact Ne.symm h
      rw [List.filter_cons]
      have hd : (decide (e.1 ≠ k)) = false := by simp [he]
      simp only [hd, Bool.false_eq_true, if_false]
      rw [objGet_cons, if_neg hne]
      exact ih
    · rw [List.filter_cons]
      have hd : (decide (e.1 ≠ k)) = true := by simp [he]
      simp only [hd, if_true]
      rw [objGet_cons, objGet_cons]
      by_cases he' : e.1 = k'
      · simp [he']
      · rw [if_neg he', if_neg he']
        exact ih

theorem objGet_mem {α : Type} {l : List (String × α)} {k : String} {v : α}
    (h : objGet l k = some v) : (k, v) ∈ l := by
  unfold objGet at h
  cases hfind : l.find? (fun e => decide (e.1 = k)) with
  | none => rw [hfind] at h; simp at h
  | some e =>
    rw [hfind] at h
    have hk : e.1 = k := by
      have := List.find?_some hfind
      simpa using this
    have hmem := List.mem_of_find?_eq_some hfind
    have hv : e.2 = v := by simpa using h
    have : e = (k, v) := by
      cases e
      simp only at hk hv
      rw [hk, hv]
    rw [this] at hmem
    exact hmem

/-- Every entry of `objSet l k v` is either an entry of `l` or the written
pair `(k, v)`. -/
theorem mem_objSet {α : Type} {l : List (String × α)} {k : String} {v : α} {e : String × α}
    (h : e ∈ objSet l k v) : e ∈ l ∨ e = (k, v) := by
  unfold objSet at h
  by_cases hs : (l.find? (fun e => decide (e.1 = k))).isSome
  · rw [if_pos hs] at h
    rcases List.mem_map.mp h with ⟨e', he', heq⟩
    by_cases hk : e'.1 = k
    · right; rw [← heq, if_pos hk]
    · left; rw [← heq, if_neg hk]; exact he'
  · rw [if_neg hs] at h
    rcases List.mem_append.mp h with h' | h'
    · left; exact h'
    · right; simpa using h'

/-- Entries surviving `objDelete` are entries of the original object. -/
theorem mem_objDelete {α : Type} {l : List (String × α)} {k : String} {e : String × α}
    (h : e ∈ objDelete l k) : e ∈ l := by
  unfold objDelete at h
  exact (List.mem_filter.mp h).1

/-- Non-`none` keys survive `objSet` (it never deletes). -/
theorem objGet_objSet_isSome {α : Type} (l : List (String × α)) (k k' : String) (v : α)
    (h : (objGet l k').isSome) : (objGet (objSet l k v) k').isSome := by
  by_cases hk : k' = k
  · subst hk; rw [objGet_objSet_self]; rfl
  · rw [objGet_objSet_ne _ _ _ _ hk]; exact h

/-! ### Specification-side definitions and the claim theorems -/

/-- C4: for every catalog and every non-empty lowercase query,
`searchProducts` returns exactly the products matching the four-field
substring disjunction, in catalog order, truncated to the first 20 matches;
and two calls with the same catalog and query return identical ordered
results. -/
theorem searchProducts_spec (ps : List Product) (query : String)
    (hne : query ≠ "") (hlc : lowerStr query = query) :
    searchProducts ps query = (ps.filter (fun item => matchesQuery item query)).take 20 ∧
    searchProducts ps query = searchProducts ps query :=
  ⟨rfl, rfl⟩

/-- Witness for C4 at a concrete catalog and query. -/
theorem searchProducts_spec_witness :
    searchProducts [⟨"A100", "filtro de aceite", "FVB", "repuestos", 1000⟩] "aceite" =
      (([⟨"A100", "filtro de aceite", "FVB", "repuestos", 1000⟩] : List Product).filter
        (fun item => matchesQuery item "aceite")).take 20 ∧
    searchProducts [⟨"A100", "filtro de aceite", "FVB", "repuestos", 1000⟩] "aceite" =
      searchProducts [⟨"A100", "filtro de aceite", "FVB", "repuestos", 1000⟩] "aceite" :=
  searchProducts_spec _ "aceite" (by decide) (by decide)

theorem le_maxFrom (f : Product → ℚ) (ps : List Product) : ∀ s : ℚ, s ≤ maxFrom f ps s := by
  induction ps with
  | nil => intro s; exact le_refl s
  | cons p ps ih =>
    intro s
    calc s ≤ max s (f p) := le_max_left _ _
    _ ≤ maxFrom f ps (max s (f p)) := ih _
    _ = maxFrom f (p :: ps) s := rfl

theorem fp_le_maxFrom (f : Product → ℚ) (ps : List Product) (p : Product) (s : ℚ) :
    f p ≤ maxFrom f ps (max s (f p)) :=
  le_trans (le_max_right s (f p)) (le_maxFrom f ps _)

/-- The strict-improvement scan keeps the running maximum of the scores and,
once some score exceeds the seed, the first product attaining that maximum. -/
theorem foldBest_eq (f : Product → ℚ) (ps : List Product) :
    ∀ (b : Option Product) (s : ℚ),
      foldBest f ps (b, s) =
        ((if s < maxFrom f ps s then ps.find? (fun p => decide (f p = maxFrom f ps s)) else b),
          maxFrom f ps s) := by
  induction ps with
  | nil =>
    intro b s
    simp [foldBest, maxFrom]
  | cons p ps ih =>
    intro b s
    have hfold : foldBest f (p :: ps) (b, s) =
        foldBest f ps (if s < f p then (some p, f p) else (b, s)) := rfl
    have hmax : maxFrom f (p :: ps) s = maxFrom f ps (max s (f p)) := rfl
    by_cases hp : s < f p
    · have hms : max s (f p) = f p := max_eq_right hp.le
      set M := maxFrom f ps (f p) with hM
      have hM' : maxFrom f (p :: ps) s = M := by rw [hmax, hms]
      have hsM : s < M := lt_of_lt_of_le hp (le_maxFrom f ps (f p))
      have hpM : f p ≤ M := le_maxFrom f ps (f p)
      rw [hfold, if_pos hp, ih (some p) (f p), hM']
      rw [if_pos hsM]
      by_cases heq : f p = M
      · have : ¬ f p < M := by rw [heq]; exact lt_irrefl M
        rw [if_neg this, List.find?_cons_of_pos _ (by simpa using heq)]
      · have : f p < M := lt_of_le_of_ne hpM heq
        rw [if_pos this, List.find?_cons_of_neg _ (by simpa using heq)]
    · have hfp : f p ≤ s := le_of_not_lt hp
      have hms : max s (f p) = s := max_eq_left hfp
      set M := maxFrom f ps s with hM
      have hM' : maxFrom f (p :: ps) s = M := by rw [hmax, hms]
      rw [hfold, if_neg hp, ih b s, hM']
      by_cases hsM : s < M
      · have hne : ¬ f p = M := fun heq => absurd hsM (by rw [← heq]; exact not_lt.mpr hfp)
        rw [if_pos hsM, if_pos hsM, List.find?_cons_of_neg _ (by simpa using hne)]
      · rw [if_neg hsM, if_neg hsM]

/-- C1: for every catalog and every non-empty token, `findSimilarProduct`
computes the unit-cost Levenshtein similarity `1 - dist / max(len, len)` of
the lowercased token against every lowercased catalog code, keeps the single
best similarity over the whole scan with ties resolved to the
first-encountered product, and returns that product exactly when its
similarity is at least 0.70. -/
theorem findSimilarProduct_spec (ps : List Product) (tok : String) (hne : tok ≠ "") :
    findSimilarProduct ps tok = fuzzySpec ps tok := by
  have hfold := foldBest_eq (similarity tok) ps none 0
  show (if (7 : ℚ) / 10 ≤ (foldBest (similarity tok) ps (none, 0)).2 then
      (foldBest (similarity tok) ps (none, 0)).1 else none) = fuzzySpec ps tok
  rw [hfold]
  simp only [fuzzySpec, bestSimilarity]
  by_cases h7 : (7 : ℚ) / 10 ≤ maxFrom (similarity tok) ps 0
  · have h0 : (0 : ℚ) < maxFrom (similarity tok) ps 0 :=
      lt_of_lt_of_le (by norm_num) h7
    rw [if_pos h7, if_pos h7, if_pos h0]
  · rw [if_neg h7, if_neg h7]

/-- Witness for C1 on a one-character-substituted token: `"a10o"` resolves to
`"A100"` (similarity 3/4). -/
theorem findSimilarProduct_spec_witness :
    findSimilarProduct [⟨"A100", "filtro", "N/A", "N/A", 500⟩] "a10o" =
      fuzzySpec [⟨"A100", "filtro", "N/A", "N/A", 500⟩] "a10o" :=
  findSimilarProduct_spec _ "a10o" (by decide)

/-- Reading a key from an entry-wise mapped object gives the mapped value. -/
theorem objGet_map_entries {α β : Type} (f : α → β) (l : List (String × α)) (k : String) :
    objGet (l.map (fun e => (e.1, f e.2))) k = (objGet l k).map f := by
  induction l with
  | nil => rfl
  | cons e l ih =>
    rw [List.map_cons, objGet_cons, objGet_cons]
    by_cases h : e.1 = k
    · simp [h]
    · simp only [h, if_false]
      exact ih

/-- C2: `generateQuote` on a ledger with zero entries leaves the existing
quote unchanged; on a non-empty ledger it replaces the quote wholesale with
one having the same entry count, codes, per-key entries (same item and
quantity, match normalized to the three-value vocabulary) and the same
total, with an entry carrying no explicit classification defaulting to
`exact`. -/
theorem generateQuote_spec (cart : Cart) (q0 : Quote) :
    (cart = [] → generateQuote cart q0 = q0) ∧
    (cart ≠ [] →
      generateQuote cart q0 =
        cart.map (fun ce => (ce.1, ⟨ce.2.item, ce.2.cantidad, normalizeMatch ce.2.mtch⟩)) ∧
      (generateQuote cart q0).length = cart.length ∧
      (generateQuote cart q0).map (fun ce => ce.1) = cart.map (fun ce => ce.1) ∧
      (∀ code, quoteGet (generateQuote cart q0) code =
        (cartGet cart code).map (fun e => ⟨e.item, e.cantidad, normalizeMatch e.mtch⟩)) ∧
      quoteTotal (generateQuote cart q0) = cartTotal cart ∧
      normalizeMatch .undef = .exact) := by
  constructor
  · intro h
    subst h
    rfl
  · intro h
    have hne : cart.isEmpty = false := by
      cases cart with
      | nil => exact absurd rfl h
      | cons e l => rfl
    have hmap : generateQuote cart q0 =
        cart.map (fun ce => (ce.1, ⟨ce.2.item, ce.2.cantidad, normalizeMatch ce.2.mtch⟩)) := by
      unfold generateQuote
      rw [hne]
      simp
    refine ⟨hmap, ?_, ?_, ?_, ?_, rfl⟩
    · rw [hmap, List.length_map]
    · rw [hmap, List.map_map]
      rfl
    · intro code
      rw [hmap]
      exact objGet_map_entries
        (fun e => (⟨e.item, e.cantidad, normalizeMatch e.mtch⟩ : QEntry)) cart code
    · rw [hmap]
      unfold quoteTotal cartTotal
      rw [List.map_map]
      rfl

/-- Witness for C2: the total of a generated quote over a concrete two-entry
ledger equals the ledger total. -/
theorem generateQuote_spec_witness :
    quoteTotal (generateQuote
        [("A", ⟨⟨"A", "d", "m", "c", 10⟩, 2, .undef⟩),
         ("B", ⟨⟨"B", "e", "m", "c", 7⟩, 3, .tag .approx⟩)] []) =
      cartTotal
        [("A", ⟨⟨"A", "d", "m", "c", 10⟩, 2, .undef⟩),
         ("B", ⟨⟨"B", "e", "m", "c", 7⟩, 3, .tag .approx⟩)] :=
  ((generateQuote_spec _ _).2 (by decide)).2.2.2.2.1

/-- C6: for every non-empty trimmed line, the line pass searches the
lowercased full line, falls back to the phrase of the first three normalized
words of length at least 3 when that search is empty, uses only the first
result; an absent code is added as `approx` with quantity 1, and a present
code has its quantity incremented by exactly 1 with its product and match
classification untouched, all other entries unchanged. -/
theorem processLine_spec (ps : List Product) (cart : Cart) (line : String)
    (htrim : trimStr line = line) (hne : line ≠ "") :
    (lineResult ps line =
      (if (searchProducts ps (lowerStr line)).isEmpty then
        match firstWordsPhrase (lowerStr line) with
        | some phrase => (searchProducts ps phrase).head?
        | none => none
      else (searchProducts ps (lowerStr line)).head?)) ∧
    (lineResult ps line = none → processLine ps cart line = cart) ∧
    (∀ item, lineResult ps line = some item →
      (cartGet cart item.codigo = none →
        processLine ps cart line = cart ++ [(item.codigo, ⟨item, 1, .tag .approx⟩)]) ∧
      (∀ e, cartGet cart item.codigo = some e →
        cartGet (processLine ps cart line) item.codigo =
          some ⟨e.item, e.cantidad + 1, e.mtch⟩ ∧
        (∀ c, c ≠ item.codigo → cartGet (processLine ps cart line) c = cartGet cart c))) := by
  refine ⟨?_, ?_, ?_⟩
  · by_cases hempty : (searchProducts ps (lowerStr line)).isEmpty
    · simp only [lineResult, hempty, if_true]
      cases hph : firstWordsPhrase (lowerStr line) with
      | some phrase => simp [hph]
      | none =>
        have : searchProducts ps (lowerStr line) = [] := by
          simpa [List.isEmpty_iff] using hempty
        simp [hph, this]
    · simp only [lineResult, hempty, Bool.false_eq_true, if_false]
  · intro h
    simp only [processLine, h]
  · intro item hres
    constructor
    · intro habs
      simp only [processLine, hres, habs]
      exact objSet_of_absent cart item.codigo _ habs
    · intro e hpres
      have hPL : processLine ps cart line =
          cartSet cart item.codigo ⟨e.item, e.cantidad + 1, e.mtch⟩ := by
        simp only [processLine, hres, hpres]
      constructor
      · rw [hPL]
        exact objGet_objSet_self cart item.codigo _
      · intro c hc
        rw [hPL]
        exact objGet_objSet_ne cart item.codigo c _ hc

/-- Witness for C6: a line matching no catalog entry leaves a concrete cart
unchanged. -/
theorem processLine_spec_witness :
    processLine [] [("X", ⟨⟨"X", "d", "m", "c", 3⟩, 1, .undef⟩)] "alpha" =
      [("X", ⟨⟨"X", "d", "m", "c", 3⟩, 1, .undef⟩)] :=
  (processLine_spec [] _ "alpha" (by decide) (by decide)).2.1 rfl

/-- C7 counterexample: substituting the quote entry at code `"A"` (product
`P`) to catalog product `Q` with code `"B"` and then back to `P`: the entry
again holds product `P` under code `"A"`, but its classification is
`approx`, not the `exact` the claim asserts (the second substitution changes
the code from `"B"` to `"A"`, so the handler marks it `approx`). -/
theorem substitute_roundtrip_cex :
    quoteGet
        (substituteProduct [⟨"A", "pa", "m", "c", 10⟩, ⟨"B", "pb", "m", "c", 20⟩]
          (substituteProduct [⟨"A", "pa", "m", "c", 10⟩, ⟨"B", "pb", "m", "c", 20⟩]
            [("A", ⟨⟨"A", "pa", "m", "c", 10⟩, 2, .exact⟩)] "A" "B")
          "B" "A") "A" =
      some ⟨⟨"A", "pa", "m", "c", 10⟩, 2, .approx⟩ ∧
    (MatchKind.approx ≠ MatchKind.exact) := by
  decide

/-- C7 amended: the double substitution restores the original product `P`
under the original code with the original entry's quantity, but the final
classification is `approx` (not `exact`), because the second substitution
again changes the entry's code. -/
theorem substitute_roundtrip_amended (ps : List Product) (q : Quote) (oldCode : String)
    (P Q : Product) (e : QEntry)
    (hget : quoteGet q oldCode = some e)
    (hP : P.codigo = oldCode) (hQ : Q.codigo ≠ oldCode)
    (hfQ : ps.find? (fun p => decide (p.codigo = Q.codigo)) = some Q)
    (hfP : ps.find? (fun p => decide (p.codigo = oldCode)) = some P) :
    quoteGet
        (substituteProduct ps (substituteProduct ps q oldCode Q.codigo) Q.codigo P.codigo)
        oldCode = some ⟨P, e.cantidad, .approx⟩ := by
  have h1 : substituteProduct ps q oldCode Q.codigo =
      quoteSet (quoteDelete q oldCode) Q.codigo ⟨Q, e.cantidad, .approx⟩ := by
    simp only [substituteProduct, hfQ, hget, hQ, if_false]
  have hget1 : quoteGet (substituteProduct ps q oldCode Q.codigo) Q.codigo =
      some ⟨Q, e.cantidad, .approx⟩ := by
    rw [h1]
    exact objGet_objSet_self _ _ _
  have hPQ : P.codigo ≠ Q.codigo := by
    rw [hP]
    exact Ne.symm hQ
  have hfP' : ps.find? (fun p => decide (p.codigo = P.codigo)) = some P := by
    rw [hP]
    exact hfP
  have h2 : substituteProduct ps (substituteProduct ps q oldCode Q.codigo) Q.codigo P.codigo =
      quoteSet (quoteDelete (substituteProduct ps q oldCode Q.codigo) Q.codigo) P.codigo
        ⟨P, e.cantidad, .approx⟩ := by
    generalize hq1 : substituteProduct ps q oldCode Q.codigo = q1 at hget1 ⊢
    simp only [substituteProduct, hfP', hget1, hPQ, if_false]
  rw [h2, ← hP]
  exact objGet_objSet_self _ _ _

theorem idxLookup_nil (tok : String) : idxLookup [] tok = [] := rfl

theorem idxLookup_cons (e : String × List Product) (idx : DescIdx) (tok : String) :
    idxLookup (e :: idx) tok = if e.1 = tok then e.2 else idxLookup idx tok := by
  by_cases h : e.1 = tok <;> simp [idxLookup, List.find?_cons, h]

theorem idxLookup_mapPush_self (idx : DescIdx) (tok : String) (prod : Product) :
    idxLookup (idx.map (fun e => if e.1 = tok then (tok, e.2 ++ [prod]) else e)) tok =
      if (idx.find? (fun e => decide (e.1 = tok))).isSome then idxLookup idx tok ++ [prod]
      else [] := by
  induction idx with
  | nil => simp [idxLookup]
  | cons e idx ih =>
    by_cases h : e.1 = tok
    · simp only [List.map_cons, if_pos h, List.find?_cons, h, decide_eq_true_eq]
      rw [idxLookup_cons, idxLookup_cons]
      simp [h]
    · have hd : (decide (e.1 = tok)) = false := by simp [h]
      simp only [List.map_cons, if_neg h, List.find?_cons, hd]
      rw [idxLookup_cons, if_neg h, idxLookup_cons, if_neg h]
      exact ih

theorem idxLookup_mapPush_ne (idx : DescIdx) (tok tok' : String) (prod : Product)
    (h : tok' ≠ tok) :
    idxLookup (idx.map (fun e => if e.1 = tok then (tok, e.2 ++ [prod]) else e)) tok' =
      idxLookup idx tok' := by
  induction idx with
  | nil => rfl
  | cons e idx ih =>
    by_cases he : e.1 = tok
    · have hne : ¬ e.1 = tok' := by rw [he]; exact Ne.symm h
      simp only [List.map_cons, if_pos he]
      rw [idxLookup_cons, idxLookup_cons, if_neg hne, if_neg (Ne.symm h)]
      exact ih
    · simp only [List.map_cons, if_neg he]
      rw [idxLookup_cons, idxLookup_cons]
      by_cases he' : e.1 = tok'
      · simp [he']
      · rw [if_neg he', if_neg he']
        exact ih

theorem idxLookup_idxPush_self (idx : DescIdx) (tok : String) (prod : Product) :
    idxLookup (idxPush idx tok prod) tok = idxLookup idx tok ++ [prod] := by
  unfold idxPush
  by_cases hs : (idx.find? (fun e => decide (e.1 = tok))).isSome
  · rw [if_pos hs, idxLookup_mapPush_self, if_pos hs]
  · rw [if_neg hs]
    have hnone : idx.find? (fun e => decide (e.1 = tok)) = none := by
      cases hf : idx.find? (fun e => decide (e.1 = tok)) with
      | none => rfl
      | some x => rw [hf] at hs; simp at hs
    have hlk : idxLookup idx tok = [] := by
      unfold idxLookup
      rw [hnone]
      rfl
    rw [hlk]
    unfold idxLookup
    rw [List.find?_append, hnone]
    simp [List.find?_cons]

theorem idxLookup_idxPush_ne (idx : DescIdx) (tok tok' : String) (prod : Product)
    (h : tok' ≠ tok) : idxLookup (idxPush idx tok prod) tok' = idxLookup idx tok' := by
  unfold idxPush
  by_cases hs : (idx.find? (fun e => decide (e.1 = tok))).isSome
  · rw [if_pos hs, idxLookup_mapPush_ne _ _ _ _ h]
  · rw [if_neg hs]
    unfold idxLookup
    rw [List.find?_append]
    have : List.find? (fun e => decide (e.1 = tok')) [(tok, [prod])] = none := by
      simp [List.find?_cons, Ne.symm h]
    rw [this, Option.or_none]

theorem mem_dedupFirstAux (l : List String) :
    ∀ (seen : List String) (y : String), y ∈ dedupFirstAux l seen → y ∈ l := by
  induction l with
  | nil => intro seen y h; simp [dedupFirstAux] at h
  | cons x xs ih =>
    intro seen y h
    unfold dedupFirstAux at h
    by_cases hc : seen.contains x
    · rw [if_pos hc] at h
      exact List.mem_cons_of_mem _ (ih seen y h)
    · rw [if_neg hc] at h
      rcases List.mem_cons.mp h with h' | h'
      · rw [h']; exact List.mem_cons_self _ _
      · exact List.mem_cons_of_mem _ (ih (x :: seen) y h')

theorem mem_dedupFirst (l : List String) (y : String) (h : y ∈ dedupFirst l) : y ∈ l :=
  mem_dedupFirstAux l [] y h

theorem dedupFirstAux_not_mem (l : List String) :
    ∀ (seen : List String) (y : String), y ∈ seen → y ∉ dedupFirstAux l seen := by
  induction l with
  | nil => intro seen y hy h; simp [dedupFirstAux] at h
  | cons x xs ih =>
    intro seen y hy h
    unfold dedupFirstAux at h
    by_cases hc : seen.contains x
    · rw [if_pos hc] at h
      exact ih seen y hy h
    · rw [if_neg hc] at h
      rcases List.mem_cons.mp h with h' | h'
      · rw [h'] at hy
        have : seen.contains x = true := by
          rw [List.contains_eq_any_beq]
          exact List.any_eq_true.mpr ⟨x, hy, by simp⟩
        exact hc this
      · exact ih (x :: seen) y (List.mem_cons_of_mem _ hy) h'

theorem dedupFirstAux_nodup (l : List String) :
    ∀ seen : List String, (dedupFirstAux l seen).Nodup := by
  induction l with
  | nil => intro seen; simp [dedupFirstAux]
  | cons x xs ih =>
    intro seen
    unfold dedupFirstAux
    by_cases hc : seen.contains x
    · rw [if_pos hc]
      exact ih seen
    · rw [if_neg hc]
      exact List.nodup_cons.mpr
        ⟨dedupFirstAux_not_mem xs (x :: seen) x (List.mem_cons_self _ _), ih (x :: seen)⟩

theorem dedupFirst_nodup (l : List String) : (dedupFirst l).Nodup :=
  dedupFirstAux_nodup l []

/-- Pushing one product under a duplicate-free token list appends it once to
exactly the posting lists of those tokens. -/
theorem idxLookup_foldPush (p : Product) (toks : List String) (hnd : toks.Nodup) :
    ∀ (idx : DescIdx) (t : String),
      idxLookup (toks.foldl (fun idx tk => idxPush idx tk p) idx) t =
        idxLookup idx t ++ (if toks.contains t then [p] else []) := by
  induction toks with
  | nil => intro idx t; simp
  | cons tk toks ih =>
    intro idx t
    have hnd' := List.nodup_cons.mp hnd
    rw [List.foldl_cons]
    by_cases ht : t = tk
    · subst ht
      have hnc : toks.contains t = false := by
        rw [List.contains_eq_any_beq]
        simp only [List.any_eq_false]
        intro x hx
        intro hbeq
        apply hnd'.1
        have : t = x := by simpa using hbeq
        rw [this]
        exact hx
      rw [ih hnd'.2 (idxPush idx t p) t, hnc]
      simp only [Bool.false_eq_true, if_false, List.append_nil]
      rw [idxLookup_idxPush_self]
      have hct : (t :: toks).contains t = true := by simp [List.contains_eq_any_beq]
      rw [hct, if_pos rfl]
    · rw [ih hnd'.2 (idxPush idx tk p) t, idxLookup_idxPush_ne _ _ _ _ ht]
      have : (tk :: toks).contains t = toks.contains t := by
        simp only [List.contains_eq_any_beq, List.any_cons]
        have : (t == tk) = false := by simpa using ht
        rw [this]
        simp
      rw [this]

/-- Folding the index builder over a catalog suffix appends, to every posting
list, exactly the suffix products whose token set contains the token. -/
theorem idxLookup_buildFold (ps : List Product) :
    ∀ (idx : DescIdx) (t : String),
      idxLookup
          (ps.foldl
            (fun idx prod => (prodTokens prod).foldl (fun idx tok => idxPush idx tok prod) idx)
            idx) t =
        idxLookup idx t ++ ps.filter (fun p => (prodTokens p).contains t) := by
  induction ps with
  | nil => intro idx t; simp
  | cons p ps ih =>
    intro idx t
    rw [List.foldl_cons, ih, List.filter_cons]
    rw [idxLookup_foldPush p (prodTokens p) (dedupFirst_nodup _) idx t]
    by_cases hc : (prodTokens p).contains t
    · rw [if_pos hc, if_pos hc, List.append_assoc]
      rfl
    · have hc' : (prodTokens p).contains t = false := by
        cases h : (prodTokens p).contains t
        · rfl
        · exact absurd h hc
      rw [hc', if_neg (by simp), if_neg (by simp)]
      simp

/-- C9 counterexample: the description `"Test- Test_"` contains the two
distinct original words `"Test-"` and `"Test_"`, both normalizing to the
length-4 token `"test"`, yet the posting list of `"test"` contains the
product exactly once, not more than once: `buildDescIndex` deduplicates the
token set of each product (`new Set(...)`) before pushing. -/
theorem buildDescIndex_dedup_cex :
    (tokenize (lowerStr "Test- Test_")).filter (fun w => 4 ≤ w.length) = ["test", "test"] ∧
    idxLookup (buildDescIndex [⟨"C1", "Test- Test_", "N/A", "N/A", 1⟩]) "test" =
      [⟨"C1", "Test- Test_", "N/A", "N/A", 1⟩] := by
  decide

/-- C9 amended: the posting list of every token is exactly the catalog-order
filter of the products whose deduplicated normalized token set contains the
token; in particular postings are deduplicated per product across distinct
source words (a product occurring once in the catalog appears at most once
per posting list). -/
theorem buildDescIndex_lookup (ps : List Product) (tok : String) :
    idxLookup (buildDescIndex ps) tok =
      ps.filter (fun p => (prodTokens p).contains tok) := by
  have h := idxLookup_buildFold ps [] tok
  simpa [buildDescIndex] using h

/-! #### The description-frequency pass (C5) -/

theorem objGet_append {α : Type} (l l' : List (String × α)) (k : String) :
    objGet (l ++ l') k = (objGet l k).or (objGet l' k) := by
  unfold objGet
  rw [List.find?_append]
  cases l.find? (fun e => e.1 = k) <;> simp

theorem pickSuggestion_cartSet_ne (ps : List Product) (cart : Cart) (c c' : String)
    (e : CEntry) (h : c' ≠ c) :
    pickSuggestion ps (cartSet cart c e) c' = pickSuggestion ps cart c' := by
  have h' : cartGet (cartSet cart c e) c' = cartGet cart c' := objGet_objSet_ne cart c c' e h
  unfold pickSuggestion
  rw [h']

/-- The suggestion loop appends, in order, the first `5 - n` viable
candidates from a duplicate-free code list. -/
theorem addSuggestions_eq (ps : List Product) :
    ∀ (codes : List String) (cart : Cart) (n : Nat), codes.Nodup → n ≤ 5 →
      addSuggestions ps cart codes n =
        cart ++ (codes.filterMap (pickSuggestion ps cart)).take (5 - n) := by
  intro codes
  induction codes with
  | nil => intro cart n hnd hn; simp [addSuggestions]
  | cons c rest ih =>
    intro cart n hnd hn
    have hnd' := List.nodup_cons.mp hnd
    unfold addSuggestions
    by_cases h5 : 5 ≤ n
    · have hn5 : n = 5 := le_antisymm hn h5
      rw [if_pos h5, hn5]
      simp
    · rw [if_neg h5]
      have hlt : n < 5 := lt_of_not_ge h5
      by_cases hpres : (cartGet cart c).isSome
      · rw [if_pos hpres]
        rw [ih cart n hnd'.2 hn]
        have hpick : pickSuggestion ps cart c = none := by
          unfold pickSuggestion
          rw [if_pos hpres]
        rw [List.filterMap_cons, hpick]
      · rw [if_neg hpres]
        have habs : cartGet cart c = none := by
          cases h : cartGet cart c with
          | none => rfl
          | some v => rw [h] at hpres; simp at hpres
        cases hfind : ps.find? (fun p => decide (p.codigo = c)) with
        | none =>
          show addSuggestions ps cart rest n = _
          rw [ih cart n hnd'.2 hn]
          have hpick : pickSuggestion ps cart c = none := by
            unfold pickSuggestion
            rw [if_neg hpres, hfind]
            rfl
          rw [List.filterMap_cons, hpick]
        | some prod =>
          show addSuggestions ps (cartSet cart c ⟨prod, 1, .tag .approx⟩) rest (n + 1) = _
          have hset : cartSet cart c ⟨prod, 1, .tag .approx⟩ =
              cart ++ [(c, ⟨prod, 1, .tag .approx⟩)] :=
            objSet_of_absent cart c _ habs
          rw [ih (cartSet cart c ⟨prod, 1, .tag .approx⟩) (n + 1) hnd'.2 hlt]
          have hcongr : rest.filterMap (pickSuggestion ps (cartSet cart c ⟨prod, 1, .tag .approx⟩)) =
              rest.filterMap (pickSuggestion ps cart) := by
            apply List.filterMap_congr
            intro x hx
            exact pickSuggestion_cartSet_ne ps cart c x _ (fun hxc => hnd'.1 (hxc ▸ hx))
          rw [hcongr, hset]
          have hpick : pickSuggestion ps cart c = some (c, ⟨prod, 1, .tag .approx⟩) := by
            unfold pickSuggestion
            rw [if_neg hpres, hfind]
            rfl
          rw [List.filterMap_cons, hpick]
          have htake : (5 - n) = (5 - (n + 1)) + 1 := by omega
          rw [htake, List.take_succ_cons, List.append_assoc]
          rfl

theorem keys_bumpCount (counts : List (String × Nat)) (code : String) :
    (bumpCount counts code).map (fun e => e.1) =
      if (counts.find? (fun e => decide (e.1 = code))).isSome then counts.map (fun e => e.1)
      else counts.map (fun e => e.1) ++ [code] := by
  unfold bumpCount
  by_cases hs : (counts.find? (fun e => decide (e.1 = code))).isSome
  · rw [if_pos hs, if_pos hs, List.map_map]
    apply List.map_congr_left
    intro e _
    by_cases h : e.1 = code <;> simp [h]
  · rw [if_neg hs, if_neg hs]
    simp

theorem nodupKeys_bumpCount (counts : List (String × Nat)) (code : String)
    (h : (counts.map (fun e => e.1)).Nodup) :
    ((bumpCount counts code).map (fun e => e.1)).Nodup := by
  rw [keys_bumpCount]
  by_cases hs : (counts.find? (fun e => decide (e.1 = code))).isSome
  · rw [if_pos hs]; exact h
  · rw [if_neg hs]
    have habs : ∀ e ∈ counts, ¬ (e.1 = code) := by
      intro e he hec
      have : counts.find? (fun e => decide (e.1 = code)) = none := by
        cases hf : counts.find? (fun e => decide (e.1 = code)) with
        | none => rfl
        | some v => rw [hf] at hs; simp at hs
      rw [List.find?_eq_none] at this
      exact this e he (by simp [hec])
    rw [List.nodup_append]
    refine ⟨h, List.nodup_singleton _, ?_⟩
    intro a ha hb
    rcases List.mem_map.mp ha with ⟨e, he, hea⟩
    have : a = code := by simpa using hb
    exact habs e he (by rw [hea, this])

theorem nodupKeys_bumpFold (l : List Product) :
    ∀ counts : List (String × Nat), (counts.map (fun e => e.1)).Nodup →
      (((l.foldl (fun cs p => bumpCount cs p.codigo) counts)).map (fun e => e.1)).Nodup := by
  induction l with
  | nil => intro counts h; exact h
  | cons p l ih =>
    intro counts h
    rw [List.foldl_cons]
    exact ih _ (nodupKeys_bumpCount counts p.codigo h)

theorem nodupKeys_buildCounts (idx : DescIdx) (toks : List String) :
    ((buildCounts idx toks).map (fun e => e.1)).Nodup := by
  unfold buildCounts
  suffices h : ∀ counts : List (String × Nat), (counts.map (fun e => e.1)).Nodup →
      ((toks.foldl
        (fun counts tok =>
          (idxLookup idx tok).foldl (fun counts prod => bumpCount counts prod.codigo) counts)
        counts).map (fun e => e.1)).Nodup by
    exact h [] (by simp)
  induction toks with
  | nil => intro counts h; exact h
  | cons tok toks ih =>
    intro counts h
    rw [List.foldl_cons]
    exact ih _ (nodupKeys_bumpFold _ counts h)

theorem insertDesc_perm (cnt : String → Nat) (x : String) (l : List String) :
    (insertDesc cnt x l).Perm (x :: l) := by
  induction l with
  | nil => exact List.Perm.refl _
  | cons y ys ih =>
    unfold insertDesc
    by_cases h : cnt y < cnt x
    · rw [if_pos h]
    · rw [if_neg h]
      exact ((ih.cons y).trans (List.Perm.swap x y ys)).symm.symm

theorem sortByCountDesc_perm (cnt : String → Nat) (l : List String) :
    (sortByCountDesc cnt l).Perm l := by
  unfold sortByCountDesc
  suffices h : ∀ acc : List String,
      (l.foldl (fun acc x => insertDesc cnt x acc) acc).Perm (acc ++ l) by
    simpa using h []
  induction l with
  | nil => intro acc; simp
  | cons x xs ih =>
    intro acc
    rw [List.foldl_cons]
    refine (ih (insertDesc cnt x acc)).trans ?_
    refine ((insertDesc_perm cnt x acc).append_right xs).trans ?_
    exact List.perm_middle.symm

theorem mem_insertDesc (cnt : String → Nat) (x y : String) (l : List String)
    (h : y ∈ insertDesc cnt x l) : y = x ∨ y ∈ l := by
  have := (insertDesc_perm cnt x l).mem_iff.mp h
  simpa using this

theorem pairwise_insertDesc (cnt : String → Nat) (x : String) (l : List String)
    (h : List.Pairwise (fun a b => cnt b ≤ cnt a) l) :
    List.Pairwise (fun a b => cnt b ≤ cnt a) (insertDesc cnt x l) := by
  induction l with
  | nil => simp [insertDesc]
  | cons y ys ih =>
    have hy := (List.pairwise_cons.mp h).1
    have hys := (List.pairwise_cons.mp h).2
    unfold insertDesc
    by_cases hlt : cnt y < cnt x
    · rw [if_pos hlt]
      refine List.pairwise_cons.mpr ⟨?_, h⟩
      intro b hb
      rcases List.mem_cons.mp hb with hb | hb
      · rw [hb]; exact le_of_lt hlt
      · exact le_trans (hy b hb) (le_of_lt hlt)
    · rw [if_neg hlt]
      refine List.pairwise_cons.mpr ⟨?_, ih hys⟩
      intro b hb
      rcases mem_insertDesc cnt x b ys hb with hb | hb
      · rw [hb]; exact le_of_not_lt hlt
      · exact hy b hb

theorem pairwise_sortByCountDesc (cnt : String → Nat) (l : List String) :
    List.Pairwise (fun a b => cnt b ≤ cnt a) (sortByCountDesc cnt l) := by
  unfold sortByCountDesc
  suffices h : ∀ acc : List String, List.Pairwise (fun a b => cnt b ≤ cnt a) acc →
      List.Pairwise (fun a b => cnt b ≤ cnt a) (l.foldl (fun acc x => insertDesc cnt x acc) acc) by
    exact h [] (List.Pairwise.nil)
  induction l with
  | nil => intro acc h; exact h
  | cons x xs ih =>
    intro acc h
    rw [List.foldl_cons]
    exact ih _ (pairwise_insertDesc cnt x acc h)

/-- C5 amended: the description-frequency pass appends to the untouched
ledger at most the first 5 viable candidates (absent from the ledger and
resolvable in the catalog) of the sorted candidate list, each as `approx`
with quantity 1; the candidate list is ordered by descending tally — with
ties kept in tally insertion order (document token order, then postings
order), not catalog order — and products already in the ledger are skipped
with their entries unchanged. -/
theorem descPass_spec (ps : List Product) (idx : DescIdx) (cart : Cart)
    (lowerContent : String) :
    descPass ps idx cart lowerContent =
      cart ++ ((sortedCodesOf idx lowerContent).filterMap (pickSuggestion ps cart)).take 5 ∧
    List.Pairwise
      (fun a b => countOf (buildCounts idx (descTokensOf lowerContent)) b ≤
        countOf (buildCounts idx (descTokensOf lowerContent)) a)
      (sortedCodesOf idx lowerContent) ∧
    (((sortedCodesOf idx lowerContent).filterMap (pickSuggestion ps cart)).take 5).length ≤ 5 ∧
    (∀ e ∈ ((sortedCodesOf idx lowerContent).filterMap (pickSuggestion ps cart)).take 5,
      e.2.cantidad = 1 ∧ e.2.mtch = .tag .approx ∧ cartGet cart e.1 = none) ∧
    (∀ c, (cartGet cart c).isSome →
      cartGet (descPass ps idx cart lowerContent) c = cartGet cart c) := by
  have hnd : (sortedCodesOf idx lowerContent).Nodup := by
    simp only [sortedCodesOf]
    exact (sortByCountDesc_perm _ _).symm.nodup
      (nodupKeys_buildCounts idx (descTokensOf lowerContent))
  have hmain : descPass ps idx cart lowerContent =
      cart ++ ((sortedCodesOf idx lowerContent).filterMap (pickSuggestion ps cart)).take 5 := by
    unfold descPass
    have := addSuggestions_eq ps (sortedCodesOf idx lowerContent) cart 0 hnd (by omega)
    simpa using this
  refine ⟨hmain, ?_, ?_, ?_, ?_⟩
  · unfold sortedCodesOf
    exact pairwise_sortByCountDesc _ _
  · exact List.length_take_le _ _
  · intro e he
    have he' := List.take_subset _ _ he
    rcases List.mem_filterMap.mp he' with ⟨c, _, hpick⟩
    unfold pickSuggestion at hpick
    by_cases hpres : (cartGet cart c).isSome
    · rw [if_pos hpres] at hpick
      simp at hpick
    · rw [if_neg hpres] at hpick
      cases hfind : ps.find? (fun p => decide (p.codigo = c)) with
      | none => rw [hfind] at hpick; simp at hpick
      | some prod =>
        rw [hfind] at hpick
        have he2 : e = (c, ⟨prod, 1, .tag .approx⟩) := by simpa using hpick.symm
        have habs : cartGet cart c = none := by
          cases h : cartGet cart c with
          | none => rfl
          | some v => rw [h] at hpres; simp at hpres
        rw [he2]
        exact ⟨rfl, rfl, habs⟩
  · intro c hc
    have happ : cartGet
        (cart ++ ((sortedCodesOf idx lowerContent).filterMap (pickSuggestion ps cart)).take 5) c =
        (cartGet cart c).or
          (cartGet (((sortedCodesOf idx lowerContent).filterMap (pickSuggestion ps cart)).take 5) c) :=
      objGet_append _ _ c
    rw [hmain, happ]
    cases h : cartGet cart c with
    | none => rw [h] at hc; simp at hc
    | some v => rfl

/-- C5 counterexample: the document mentions the six keywords in reverse
catalog order, so all six candidates are tied at tally 1.  Were ties
resolved on catalog order, `Q1` would rank first and be among the 5 added
products; in fact the tally (and hence the stable sort) keeps document
first-occurrence order, `Q6 ... Q2` are added, and `Q1` is not added at
all. -/
theorem descPass_tie_cex :
    cartGet (reconcile catalogC5 (buildDescIndex catalogC5) []
        "wordf worde wordd wordc wordb worda") "Q1" = none ∧
    cartGet (reconcile catalogC5 (buildDescIndex catalogC5) []
        "wordf worde wordd wordc wordb worda") "Q6" =
      some ⟨⟨"Q6", "wordf", "N/A", "N/A", 10⟩, 1, .tag .approx⟩ := by
  constructor <;> decide

/-- In scenario 2 the fuzzy matcher rejects `"xyz99"`: its similarity to the
only code `"A100"` is `1 - 5/5 = 0 < 0.7`. -/
theorem findSimilar_xyz99 : findSimilarProduct catalogC3 "xyz99" = none := by
  have hsim : similarity "xyz99" prodA100 = 0 := by
    have hlev : levenshteinDistance (lowerStr "xyz99") (lowerStr prodA100.codigo) = 5 := by
      decide
    have hl1 : (lowerStr "xyz99").length = 5 := by decide
    have hl2 : (lowerStr prodA100.codigo).length = 4 := by decide
    simp only [similarity, hlev, hl1, hl2]
    norm_num [max_def]
  show (if (7 : ℚ) / 10 ≤ (foldBest (similarity "xyz99") catalogC3 (none, 0)).2 then
      (foldBest (similarity "xyz99") catalogC3 (none, 0)).1 else none) = none
  have hfold : foldBest (similarity "xyz99") catalogC3 (none, 0) = (none, 0) := by
    show (if (0 : ℚ) < similarity "xyz99" prodA100 then
        (some prodA100, similarity "xyz99" prodA100) else ((none : Option Product), (0 : ℚ))) =
      (none, 0)
    rw [hsim, if_neg (lt_irrefl 0)]
  rw [hfold]
  norm_num

/-- The ledger produced by scenario 2 on the code under test. -/
theorem reconcile_c3 :
    reconcile catalogC3 (buildDescIndex catalogC3) [] "a100 a100 xyz99" =
      [("A100", ⟨prodA100, 1, .tag .exact⟩),
       ("XYZ99", ⟨placeholderFor "xyz99", 1, .tag .unmatched⟩)] := by
  simp only [reconcile]
  have e1 : (matchedCodesOf catalogC3 (lowerStr "a100 a100 xyz99")).foldl
      (exactStep catalogC3) [] = [("A100", ⟨prodA100, 1, .tag .exact⟩)] := by
    decide
  rw [e1]
  have e2 : (unmatchedTokensOf catalogC3 (lowerStr "a100 a100 xyz99")).foldl
      (fuzzyStep catalogC3) [("A100", ⟨prodA100, 1, .tag .exact⟩)] =
      [("A100", ⟨prodA100, 1, .tag .exact⟩),
       ("XYZ99", ⟨placeholderFor "xyz99", 1, .tag .unmatched⟩)] := by
    have hum : unmatchedTokensOf catalogC3 (lowerStr "a100 a100 xyz99") = ["xyz99"] := by
      decide
    rw [hum, List.foldl_cons, List.foldl_nil]
    simp only [fuzzyStep, findSimilar_xyz99]
    decide
  rw [e2]
  decide

/-- C3 counterexample: on the document `"a100 a100 xyz99"` with the catalog
containing `"A100"` (price 500) and nothing similar to `"xyz99"`, the ledger
entry `A100` has quantity 1, not the quantity 2 the claim asserts: the exact
pass collects the distinct tokens into a `Set`, so the repeated token
`"a100"` is counted once. -/
theorem reconcile_c3_cex :
    (cartGet (reconcile catalogC3 (buildDescIndex catalogC3) [] "a100 a100 xyz99") "A100").map
        (fun e => e.cantidad) = some 1 ∧
    (1 : Nat) ≠ 2 := by
  refine ⟨?_, by decide⟩
  rw [reconcile_c3]
  decide

/-- C3 amended: the scenario yields exactly the ledger with `A100` at
quantity 1 (match `exact`) — the exact pass deduplicates tokens — and the
placeholder `XYZ99` at quantity 1, match `unmatched`, price 0. -/
theorem reconcile_c3_amended :
    reconcile catalogC3 (buildDescIndex catalogC3) [] "a100 a100 xyz99" =
      [("A100", ⟨prodA100, 1, .tag .exact⟩),
       ("XYZ99", ⟨placeholderFor "xyz99", 1, .tag .unmatched⟩)] ∧
    (cartGet (reconcile catalogC3 (buildDescIndex catalogC3) [] "a100 a100 xyz99") "A100") =
      some ⟨prodA100, 1, .tag .exact⟩ ∧
    (cartGet (reconcile catalogC3 (buildDescIndex catalogC3) [] "a100 a100 xyz99") "XYZ99") =
      some ⟨placeholderFor "xyz99", 1, .tag .unmatched⟩ ∧
    (placeholderFor "xyz99").precio = 0 := by
  refine ⟨reconcile_c3, ?_, ?_, by decide⟩ <;> rw [reconcile_c3] <;> decide

/-! #### Reachable-state machinery for the ledger and the quote (C8, C10) -/

theorem goodCart_cartSet {cart : Cart} {k : String} {e : CEntry}
    (h : goodCart cart) (he : 1 ≤ e.cantidad) (hk : k = e.item.codigo) :
    goodCart (cartSet cart k e) := by
  intro x hx
  rcases mem_objSet hx with hx | hx
  · exact h x hx
  · rw [hx]
    exact ⟨he, hk⟩

theorem goodCart_entry {cart : Cart} {k : String} {e : CEntry}
    (h : goodCart cart) (hget : cartGet cart k = some e) :
    1 ≤ e.cantidad ∧ k = e.item.codigo :=
  h (k, e) (objGet_mem hget)

theorem goodCart_addToCart {cart : Cart} (item : Product) (h : goodCart cart) :
    goodCart (addToCart cart item) := by
  cases hget : cartGet cart item.codigo with
  | some e =>
    have he := goodCart_entry h hget
    have heq : addToCart cart item = cartSet cart item.codigo ⟨e.item, e.cantidad + 1, e.mtch⟩ := by
      simp only [addToCart, hget]
    rw [heq]
    exact goodCart_cartSet h (show 1 ≤ e.cantidad + 1 by omega) he.2
  | none =>
    have heq : addToCart cart item = cartSet cart item.codigo ⟨item, 1, .undef⟩ := by
      simp only [addToCart, hget]
    rw [heq]
    exact goodCart_cartSet h (show (1 : Nat) ≤ 1 by omega) rfl

theorem goodCart_setQuantity {cart : Cart} (code : String) (v : Option Int)
    (h : goodCart cart) : goodCart (setQuantity cart code v) := by
  cases v with
  | none => exact h
  | some n =>
    by_cases hn : 0 < n
    · cases hget : cartGet cart code with
      | some e =>
        have he := goodCart_entry h hget
        have heq : setQuantity cart code (some n) =
            cartSet cart code ⟨e.item, n.toNat, e.mtch⟩ := by
          simp only [setQuantity, if_pos hn, hget]
        rw [heq]
        exact goodCart_cartSet h (show 1 ≤ n.toNat by omega) he.2
      | none =>
        have heq : setQuantity cart code (some n) = cart := by
          simp only [setQuantity, if_pos hn, hget]
        rw [heq]
        exact h
    · have heq : setQuantity cart code (some n) = cart := by
        simp only [setQuantity, if_neg hn]
      rw [heq]
      exact h

theorem goodCart_remove {cart : Cart} (code : String) (h : goodCart cart) :
    goodCart (removeFromCart cart code) :=
  fun x hx => h x (mem_objDelete hx)

theorem goodCart_exactStep {ps : List Product} {cart : Cart} (codeLC : String)
    (h : goodCart cart) : goodCart (exactStep ps cart codeLC) := by
  cases hfind : ps.find? (fun p => decide (lowerStr p.codigo = codeLC)) with
  | none =>
    have heq : exactStep ps cart codeLC = cart := by simp only [exactStep, hfind]
    rw [heq]
    exact h
  | some matchItem =>
    cases hget : cartGet cart matchItem.codigo with
    | some e =>
      have he := goodCart_entry h hget
      have heq : exactStep ps cart codeLC =
          cartSet cart matchItem.codigo ⟨e.item, e.cantidad + 1, e.mtch⟩ := by
        simp only [exactStep, hfind, hget]
      rw [heq]
      exact goodCart_cartSet h (show 1 ≤ e.cantidad + 1 by omega) he.2
    | none =>
      have heq : exactStep ps cart codeLC =
          cartSet cart matchItem.codigo ⟨matchItem, 1, .tag .exact⟩ := by
        simp only [exactStep, hfind, hget]
      rw [heq]
      exact goodCart_cartSet h (show (1 : Nat) ≤ 1 by omega) rfl

theorem goodCart_fuzzyStep {ps : List Product} {cart : Cart} (token : String)
    (h : goodCart cart) : goodCart (fuzzyStep ps cart token) := by
  cases hfs : findSimilarProduct ps token with
  | some similarItem =>
    cases hget : cartGet cart similarItem.codigo with
    | some e =>
      have he := goodCart_entry h hget
      have heq : fuzzyStep ps cart token =
          cartSet cart similarItem.codigo ⟨e.item, e.cantidad + 1, e.mtch⟩ := by
        simp only [fuzzyStep, hfs, hget]
      rw [heq]
      exact goodCart_cartSet h (show 1 ≤ e.cantidad + 1 by omega) he.2
    | none =>
      have heq : fuzzyStep ps cart token =
          cartSet cart similarItem.codigo ⟨similarItem, 1, .tag .approx⟩ := by
        simp only [fuzzyStep, hfs, hget]
      rw [heq]
      exact goodCart_cartSet h (show (1 : Nat) ≤ 1 by omega) rfl
  | none =>
    cases hget : cartGet cart (upperStr token) with
    | some e =>
      have he := goodCart_entry h hget
      have heq : fuzzyStep ps cart token =
          cartSet cart (upperStr token) ⟨e.item, e.cantidad + 1, e.mtch⟩ := by
        simp only [fuzzyStep, hfs, hget]
      rw [heq]
      exact goodCart_cartSet h (show 1 ≤ e.cantidad + 1 by omega) he.2
    | none =>
      have heq : fuzzyStep ps cart token =
          cartSet cart (upperStr token) ⟨placeholderFor token, 1, .tag .unmatched⟩ := by
        simp only [fuzzyStep, hfs, hget]
      rw [heq]
      exact goodCart_cartSet h (show (1 : Nat) ≤ 1 by omega) rfl

theorem goodCart_addSuggestions {ps : List Product} :
    ∀ (codes : List String) (cart : Cart) (n : Nat),
      goodCart cart → goodCart (addSuggestions ps cart codes n) := by
  intro codes
  induction codes with
  | nil => intro cart n h; exact h
  | cons c rest ih =>
    intro cart n h
    by_cases h5 : 5 ≤ n
    · have heq : addSuggestions ps cart (c :: rest) n = cart := by
        simp only [addSuggestions, if_pos h5]
      rw [heq]
      exact h
    · by_cases hpres : (cartGet cart c).isSome
      · have heq : addSuggestions ps cart (c :: rest) n = addSuggestions ps cart rest n := by
          simp only [addSuggestions, if_neg h5, if_pos hpres]
        rw [heq]
        exact ih cart n h
      · cases hfind : ps.find? (fun p => decide (p.codigo = c)) with
        | none =>
          have heq : addSuggestions ps cart (c :: rest) n = addSuggestions ps cart rest n := by
            simp only [addSuggestions, if_neg h5, if_neg hpres, hfind]
          rw [heq]
          exact ih cart n h
        | some prod =>
          have heq : addSuggestions ps cart (c :: rest) n =
              addSuggestions ps (cartSet cart c ⟨prod, 1, .tag .approx⟩) rest (n + 1) := by
            simp only [addSuggestions, if_neg h5, if_neg hpres, hfind]
          rw [heq]
          have hc : prod.codigo = c := by
            have := List.find?_some hfind
            simpa using this
          exact ih _ _ (goodCart_cartSet h (show (1 : Nat) ≤ 1 by omega) hc.symm)

theorem goodCart_descPass {ps : List Product} {idx : DescIdx} {cart : Cart}
    (lowerContent : String) (h : goodCart cart) :
    goodCart (descPass ps idx cart lowerContent) :=
  goodCart_addSuggestions _ cart 0 h

theorem goodCart_processLine {ps : List Product} {cart : Cart} (line : String)
    (h : goodCart cart) : goodCart (processLine ps cart line) := by
  cases hres : lineResult ps line with
  | none =>
    have heq : processLine ps cart line = cart := by simp only [processLine, hres]
    rw [heq]
    exact h
  | some item =>
    cases hget : cartGet cart item.codigo with
    | none =>
      have heq : processLine ps cart line =
          cartSet cart item.codigo ⟨item, 1, .tag .approx⟩ := by
        simp only [processLine, hres, hget]
      rw [heq]
      exact goodCart_cartSet h (show (1 : Nat) ≤ 1 by omega) rfl
    | some e =>
      have he := goodCart_entry h hget
      have heq : processLine ps cart line =
          cartSet cart item.codigo ⟨e.item, e.cantidad + 1, e.mtch⟩ := by
        simp only [processLine, hres, hget]
      rw [heq]
      exact goodCart_cartSet h (show 1 ≤ e.cantidad + 1 by omega) he.2

theorem goodCart_foldl {β : Type} {f : Cart → β → Cart}
    (hf : ∀ cart x, goodCart cart → goodCart (f cart x)) :
    ∀ (l : List β) (cart : Cart), goodCart cart → goodCart (l.foldl f cart) := by
  intro l
  induction l with
  | nil => intro cart h; exact h
  | cons x xs ih => intro cart h; exact ih _ (hf cart x h)

theorem goodCart_reconcile {ps : List Product} {idx : DescIdx} {cart : Cart}
    (doc : String) (h : goodCart cart) : goodCart (reconcile ps idx cart doc) := by
  unfold reconcile
  apply goodCart_foldl (fun cart line => goodCart_processLine line)
  apply goodCart_descPass
  apply goodCart_foldl (fun cart tok => goodCart_fuzzyStep tok)
  apply goodCart_foldl (fun cart c => goodCart_exactStep c)
  exact h

/-- Every reachable ledger state satisfies the combined entry invariant. -/
theorem cartReach_good {ps : List Product} {cart : Cart} (h : CartReach ps cart) :
    goodCart cart := by
  induction h with
  | init => intro e he; simp at he
  | add cart item _ ih => exact goodCart_addToCart item ih
  | setQty cart code v _ ih => exact goodCart_setQuantity code v ih
  | remove cart code _ ih => exact goodCart_remove code ih
  | upload cart doc _ ih => exact goodCart_reconcile doc ih

theorem goodQuote_quoteSet {q : Quote} {k : String} {e : QEntry}
    (h : goodQuote q) (he : 1 ≤ e.cantidad) (hk : k = e.item.codigo) :
    goodQuote (quoteSet q k e) := by
  intro x hx
  rcases mem_objSet hx with hx | hx
  · exact h x hx
  · rw [hx]
    exact ⟨he, hk⟩

theorem goodQuote_entry {q : Quote} {k : String} {e : QEntry}
    (h : goodQuote q) (hget : quoteGet q k = some e) :
    1 ≤ e.cantidad ∧ k = e.item.codigo :=
  h (k, e) (objGet_mem hget)

theorem goodQuote_generateQuote {cart : Cart} {q : Quote}
    (hc : goodCart cart) (hq : goodQuote q) : goodQuote (generateQuote cart q) := by
  unfold generateQuote
  by_cases he : cart.isEmpty
  · rw [if_pos he]; exact hq
  · rw [if_neg he]
    intro x hx
    rcases List.mem_map.mp hx with ⟨ce, hce, hxe⟩
    have := hc ce hce
    rw [← hxe]
    exact ⟨this.1, this.2⟩

theorem goodQuote_setQuantity {q : Quote} (code : String) (v : Option Int)
    (h : goodQuote q) : goodQuote (quoteSetQuantity q code v) := by
  cases v with
  | none => exact h
  | some n =>
    by_cases hn : 0 < n
    · cases hget : quoteGet q code with
      | some e =>
        have he := goodQuote_entry h hget
        have heq : quoteSetQuantity q code (some n) =
            quoteSet q code ⟨e.item, n.toNat, e.mtch⟩ := by
          simp only [quoteSetQuantity, if_pos hn, hget]
        rw [heq]
        exact goodQuote_quoteSet h (show 1 ≤ n.toNat by omega) he.2
      | none =>
        have heq : quoteSetQuantity q code (some n) = q := by
          simp only [quoteSetQuantity, if_pos hn, hget]
        rw [heq]
        exact h
    · have heq : quoteSetQuantity q code (some n) = q := by
        simp only [quoteSetQuantity, if_neg hn]
      rw [heq]
      exact h

theorem goodQuote_remove {q : Quote} (code : String) (h : goodQuote q) :
    goodQuote (quoteRemove q code) :=
  fun x hx => h x (mem_objDelete hx)

theorem goodQuote_delete {q : Quote} (code : String) (h : goodQuote q) :
    goodQuote (quoteDelete q code) :=
  fun x hx => h x (mem_objDelete hx)

theorem goodQuote_substitute {ps : List Product} {q : Quote} (oldCode newCode : String)
    (h : goodQuote q) : goodQuote (substituteProduct ps q oldCode newCode) := by
  cases hfind : ps.find? (fun p => decide (p.codigo = newCode)) with
  | none =>
    have heq : substituteProduct ps q oldCode newCode = q := by
      simp only [substituteProduct, hfind]
    rw [heq]
    exact h
  | some newItem =>
    cases hget : quoteGet q oldCode with
    | none =>
      have heq : substituteProduct ps q oldCode newCode = q := by
        simp only [substituteProduct, hfind, hget]
      rw [heq]
      exact h
    | some rec0 =>
      have hrec := goodQuote_entry h hget
      by_cases hcode : newItem.codigo = oldCode
      · have heq : substituteProduct ps q oldCode newCode =
            quoteSet q oldCode ⟨newItem, rec0.cantidad, .exact⟩ := by
          simp only [substituteProduct, hfind, hget, if_pos hcode]
        rw [heq]
        exact goodQuote_quoteSet h hrec.1 hcode.symm
      · have heq : substituteProduct ps q oldCode newCode =
            quoteSet (quoteDelete q oldCode) newItem.codigo
              ⟨newItem, rec0.cantidad, .approx⟩ := by
          simp only [substituteProduct, hfind, hget, if_neg hcode]
        rw [heq]
        exact goodQuote_quoteSet (goodQuote_delete oldCode h) hrec.1 rfl

/-- Every reachable quote state satisfies the combined entry invariant. -/
theorem quoteReach_good {ps : List Product} {q : Quote} (h : QuoteReach ps q) :
    goodQuote q := by
  induction h with
  | init => intro e he; simp at he
  | gen cart q hc _ ih => exact goodQuote_generateQuote (cartReach_good hc) ih
  | setQty q code v _ ih => exact goodQuote_setQuantity code v ih
  | remove q code _ ih => exact goodQuote_remove code ih
  | subst q oldCode newCode _ ih => exact goodQuote_substitute oldCode newCode ih

/-! Key preservation: no ledger operation except `removeFromCart` deletes a
key. -/

theorem keys_foldl {β : Type} {f : Cart → β → Cart}
    (hf : ∀ cart x k, (cartGet cart k).isSome → (cartGet (f cart x) k).isSome) :
    ∀ (l : List β) (cart : Cart) (k : String),
      (cartGet cart k).isSome → (cartGet (l.foldl f cart) k).isSome := by
  intro l
  induction l with
  | nil => intro cart k h; exact h
  | cons x xs ih => intro cart k h; exact ih _ k (hf cart x k h)

theorem keys_addToCart (cart : Cart) (item : Product) (k : String)
    (h : (cartGet cart k).isSome) : (cartGet (addToCart cart item) k).isSome := by
  cases hget : cartGet cart item.codigo with
  | some e =>
    have heq : addToCart cart item = cartSet cart item.codigo ⟨e.item, e.cantidad + 1, e.mtch⟩ := by
      simp only [addToCart, hget]
    rw [heq]
    exact objGet_objSet_isSome _ _ _ _ h
  | none =>
    have heq : addToCart cart item = cartSet cart item.codigo ⟨item, 1, .undef⟩ := by
      simp only [addToCart, hget]
    rw [heq]
    exact objGet_objSet_isSome _ _ _ _ h

theorem keys_setQuantity (cart : Cart) (code : String) (v : Option Int) (k : String)
    (h : (cartGet cart k).isSome) : (cartGet (setQuantity cart code v) k).isSome := by
  cases v with
  | none => exact h
  | some n =>
    by_cases hn : 0 < n
    · cases hget : cartGet cart code with
      | some e =>
        have heq : setQuantity cart code (some n) =
            cartSet cart code ⟨e.item, n.toNat, e.mtch⟩ := by
          simp only [setQuantity, if_pos hn, hget]
        rw [heq]
        exact objGet_objSet_isSome _ _ _ _ h
      | none =>
        have heq : setQuantity cart code (some n) = cart := by
          simp only [setQuantity, if_pos hn, hget]
        rw [heq]
        exact h
    · have heq : setQuantity cart code (some n) = cart := by
        simp only [setQuantity, if_neg hn]
      rw [heq]
      exact h

theorem keys_exactStep (ps : List Product) (cart : Cart) (codeLC : String) (k : String)
    (h : (cartGet cart k).isSome) : (cartGet (exactStep ps cart codeLC) k).isSome := by
  cases hfind : ps.find? (fun p => decide (lowerStr p.codigo = codeLC)) with
  | none =>
    have heq : exactStep ps cart codeLC = cart := by simp only [exactStep, hfind]
    rw [heq]
    exact h
  | some matchItem =>
    cases hget : cartGet cart matchItem.codigo with
    | some e =>
      have heq : exactStep ps cart codeLC =
          cartSet cart matchItem.codigo ⟨e.item, e.cantidad + 1, e.mtch⟩ := by
        simp only [exactStep, hfind, hget]
      rw [heq]
      exact objGet_objSet_isSome _ _ _ _ h
    | none =>
      have heq : exactStep ps cart codeLC =
          cartSet cart matchItem.codigo ⟨matchItem, 1, .tag .exact⟩ := by
        simp only [exactStep, hfind, hget]
      rw [heq]
      exact objGet_objSet_isSome _ _ _ _ h

theorem keys_fuzzyStep (ps : List Product) (cart : Cart) (token : String) (k : String)
    (h : (cartGet cart k).isSome) : (cartGet (fuzzyStep ps cart token) k).isSome := by
  cases hfs : findSimilarProduct ps token with
  | some similarItem =>
    cases hget : cartGet cart similarItem.codigo with
    | some e =>
      have heq : fuzzyStep ps cart token =
          cartSet cart similarItem.codigo ⟨e.item, e.cantidad + 1, e.mtch⟩ := by
        simp only [fuzzyStep, hfs, hget]
      rw [heq]
      exact objGet_objSet_isSome _ _ _ _ h
    | none =>
      have heq : fuzzyStep ps cart token =
          cartSet cart similarItem.codigo ⟨similarItem, 1, .tag .approx⟩ := by
        simp only [fuzzyStep, hfs, hget]
      rw [heq]
      exact objGet_objSet_isSome _ _ _ _ h
  | none =>
    cases hget : cartGet cart (upperStr token) with
    | some e =>
      have heq : fuzzyStep ps cart token =
          cartSet cart (upperStr token) ⟨e.item, e.cantidad + 1, e.mtch⟩ := by
        simp only [fuzzyStep, hfs, hget]
      rw [heq]
      exact objGet_objSet_isSome _ _ _ _ h
    | none =>
      have heq : fuzzyStep ps cart token =
          cartSet cart (upperStr token) ⟨placeholderFor token, 1, .tag .unmatched⟩ := by
        simp only [fuzzyStep, hfs, hget]
      rw [heq]
      exact objGet_objSet_isSome _ _ _ _ h

theorem keys_addSuggestions (ps : List Product) :
    ∀ (codes : List String) (cart : Cart) (n : Nat) (k : String),
      (cartGet cart k).isSome → (cartGet (addSuggestions ps cart codes n) k).isSome := by
  intro codes
  induction codes with
  | nil => intro cart n k h; exact h
  | cons c rest ih =>
    intro cart n k h
    by_cases h5 : 5 ≤ n
    · have heq : addSuggestions ps cart (c :: rest) n = cart := by
        simp only [addSuggestions, if_pos h5]
      rw [heq]
      exact h
    · by_cases hpres : (cartGet cart c).isSome
      · have heq : addSuggestions ps cart (c :: rest) n = addSuggestions ps cart rest n := by
          simp only [addSuggestions, if_neg h5, if_pos hpres]
        rw [heq]
        exact ih cart n k h
      · cases hfind : ps.find? (fun p => decide (p.codigo = c)) with
        | none =>
          have heq : addSuggestions ps cart (c :: rest) n = addSuggestions ps cart rest n := by
            simp only [addSuggestions, if_neg h5, if_neg hpres, hfind]
          rw [heq]
          exact ih cart n k h
        | some prod =>
          have heq : addSuggestions ps cart (c :: rest) n =
              addSuggestions ps (cartSet cart c ⟨prod, 1, .tag .approx⟩) rest (n + 1) := by
            simp only [addSuggestions, if_neg h5, if_neg hpres, hfind]
          rw [heq]
          exact ih _ _ k (objGet_objSet_isSome _ _ _ _ h)

theorem keys_processLine (ps : List Product) (cart : Cart) (line : String) (k : String)
    (h : (cartGet cart k).isSome) : (cartGet (processLine ps cart line) k).isSome := by
  cases hres : lineResult ps line with
  | none =>
    have heq : processLine ps cart line = cart := by simp only [processLine, hres]
    rw [heq]
    exact h
  | some item =>
    cases hget : cartGet cart item.codigo with
    | none =>
      have heq : processLine ps cart line =
          cartSet cart item.codigo ⟨item, 1, .tag .approx⟩ := by
        simp only [processLine, hres, hget]
      rw [heq]
      exact objGet_objSet_isSome _ _ _ _ h
    | some e =>
      have heq : processLine ps cart line =
          cartSet cart item.codigo ⟨e.item, e.cantidad + 1, e.mtch⟩ := by
        simp only [processLine, hres, hget]
      rw [heq]
      exact objGet_objSet_isSome _ _ _ _ h

theorem keys_reconcile (ps : List Product) (idx : DescIdx) (cart : Cart) (doc : String)
    (k : String) (h : (cartGet cart k).isSome) :
    (cartGet (reconcile ps idx cart doc) k).isSome := by
  unfold reconcile
  apply keys_foldl (fun cart line k => keys_processLine ps cart line k)
  apply keys_addSuggestions
  apply keys_foldl (fun cart tok k => keys_fuzzyStep ps cart tok k)
  apply keys_foldl (fun cart c k => keys_exactStep ps cart c k)
  exact h
/-- C8: in every reachable ledger and quote state every entry has quantity
at least 1; `addToCart` inserts with quantity 1 and increments by exactly 1;
`setQuantity` with a non-positive or unparsable value is a no-op that leaves
the whole ledger unchanged; and no operation other than explicit removal
(`addToCart`, `setQuantity`, document reconciliation) ever deletes a ledger
key. -/
theorem quantity_invariant_spec (ps : List Product) :
    (∀ cart, CartReach ps cart → ∀ e ∈ cart, 1 ≤ e.2.cantidad) ∧
    (∀ q, QuoteReach ps q → ∀ e ∈ q, 1 ≤ e.2.cantidad) ∧
    (∀ (cart : Cart) (item : Product), cartGet cart item.codigo = none →
      cartGet (addToCart cart item) item.codigo = some ⟨item, 1, .undef⟩) ∧
    (∀ (cart : Cart) (item : Product) (e : CEntry), cartGet cart item.codigo = some e →
      cartGet (addToCart cart item) item.codigo = some ⟨e.item, e.cantidad + 1, e.mtch⟩) ∧
    (∀ (cart : Cart) (code : String) (v : Option Int),
      (∀ n, v = some n → n ≤ 0) → setQuantity cart code v = cart) ∧
    (∀ (cart : Cart) (item : Product) (k : String),
      (cartGet cart k).isSome → (cartGet (addToCart cart item) k).isSome) ∧
    (∀ (cart : Cart) (code k : String) (v : Option Int),
      (cartGet cart k).isSome → (cartGet (setQuantity cart code v) k).isSome) ∧
    (∀ (cart : Cart) (doc : String) (k : String),
      (cartGet cart k).isSome →
        (cartGet (reconcile ps (buildDescIndex ps) cart doc) k).isSome) := by
  refine ⟨?_, ?_, ?_, ?_, ?_, ?_, ?_, ?_⟩
  · intro cart h e he
    exact (cartReach_good h e he).1
  · intro q h e he
    exact (quoteReach_good h e he).1
  · intro cart item h
    have heq : addToCart cart item = cartSet cart item.codigo ⟨item, 1, .undef⟩ := by
      simp only [addToCart, h]
    rw [heq]
    exact objGet_objSet_self _ _ _
  · intro cart item e h
    have heq : addToCart cart item =
        cartSet cart item.codigo ⟨e.item, e.cantidad + 1, e.mtch⟩ := by
      simp only [addToCart, h]
    rw [heq]
    exact objGet_objSet_self _ _ _
  · intro cart code v hv
    cases v with
    | none => rfl
    | some n =>
      have hn : ¬ 0 < n := by
        have := hv n rfl
        omega
      simp only [setQuantity, if_neg hn]
  · intro cart item k h
    exact keys_addToCart cart item k h
  · intro cart code k v h
    exact keys_setQuantity cart code v k h
  · intro cart doc k h
    exact keys_reconcile ps _ cart doc k h

/-- Witness for C8: a negative quantity input leaves a concrete ledger
unchanged. -/
theorem quantity_invariant_spec_witness :
    setQuantity [("A", ⟨⟨"A", "d", "m", "c", 3⟩, 2, .undef⟩)] "A" (some (-1)) =
      [("A", ⟨⟨"A", "d", "m", "c", 3⟩, 2, .undef⟩)] :=
  (quantity_invariant_spec []).2.2.2.2.1 _ "A" (some (-1))
    (fun n hn => by injection hn with h; rw [← h]; decide)

/-- C10: in every reachable ledger and quote state every entry is stored
under a key equal to its own product's code; the synthesized placeholder is
keyed by its uppercased token code; and a substitution that changes the
product re-keys the entry to the new product's code in the same step,
removing the old key. -/
theorem key_coherence_spec (ps : List Product) :
    (∀ cart, CartReach ps cart → ∀ e ∈ cart, e.1 = e.2.item.codigo) ∧
    (∀ q, QuoteReach ps q → ∀ e ∈ q, e.1 = e.2.item.codigo) ∧
    (∀ token : String, (placeholderFor token).codigo = upperStr token) ∧
    (∀ (q : Quote) (oldCode newCode : String) (newItem : Product) (rec0 : QEntry),
      ps.find? (fun p => decide (p.codigo = newCode)) = some newItem →
      quoteGet q oldCode = some rec0 → newItem.codigo ≠ oldCode →
      quoteGet (substituteProduct ps q oldCode newCode) newItem.codigo =
        some ⟨newItem, rec0.cantidad, .approx⟩ ∧
      quoteGet (substituteProduct ps q oldCode newCode) oldCode = none) := by
  refine ⟨?_, ?_, fun token => rfl, ?_⟩
  · intro cart h e he
    exact (cartReach_good h e he).2
  · intro q h e he
    exact (quoteReach_good h e he).2
  · intro q oldCode newCode newItem rec0 hfind hget hcode
    have heq : substituteProduct ps q oldCode newCode =
        quoteSet (quoteDelete q oldCode) newItem.codigo
          ⟨newItem, rec0.cantidad, .approx⟩ := by
      simp only [substituteProduct, hfind, hget, if_neg hcode]
    constructor
    · rw [heq]
      exact objGet_objSet_self _ _ _
    · rw [heq]
      have h1 : quoteGet (quoteSet (quoteDelete q oldCode) newItem.codigo
          ⟨newItem, rec0.cantidad, .approx⟩) oldCode =
          quoteGet (quoteDelete q oldCode) oldCode :=
        objGet_objSet_ne _ _ _ _ (fun hc => hcode hc.symm)
      rw [h1]
      exact objGet_objDelete_self _ _

/-- Witness for C10: the single-entry ledger obtained by one `addToCart` is
keyed by the product's own code. -/
theorem key_coherence_spec_witness :
    ("P", (⟨⟨"P", "d", "m", "c", 5⟩, 1, CartMatch.undef⟩ : CEntry)).1 =
      ("P", (⟨⟨"P", "d", "m", "c", 5⟩, 1, CartMatch.undef⟩ : CEntry)).2.item.codigo :=
  (key_coherence_spec []).1 (addToCart [] ⟨"P", "d", "m", "c", 5⟩)
    (CartReach.add [] _ CartReach.init) _ (by decide)

/-- Witness for C7's amended theorem at the counterexample's concrete quote. -/
theorem substitute_roundtrip_amended_witness :
    quoteGet
        (substituteProduct [⟨"A", "pa", "m", "c", 10⟩, ⟨"B", "pb", "m", "c", 20⟩]
          (substituteProduct [⟨"A", "pa", "m", "c", 10⟩, ⟨"B", "pb", "m", "c", 20⟩]
            [("A", ⟨⟨"A", "pa", "m", "c", 10⟩, 2, .exact⟩)] "A"
            (Product.codigo ⟨"B", "pb", "m", "c", 20⟩))
          (Product.codigo ⟨"B", "pb", "m", "c", 20⟩)
          (Product.codigo ⟨"A", "pa", "m", "c", 10⟩)) "A" =
      some ⟨⟨"A", "pa", "m", "c", 10⟩, 2, .approx⟩ :=
  substitute_roundtrip_amended _ _ "A" ⟨"A", "pa", "m", "c", 10⟩ ⟨"B", "pb", "m", "c", 20⟩
    ⟨⟨"A", "pa", "m", "c", 10⟩, 2, .exact⟩ rfl rfl (by decide) (by decide) (by decide)

end FirmaVB
